import Mathlib

/-!
Shallow embedding of the shared-memory lock manager implemented in
`libpod/lock/shm/shm_lock.c` (and its header `shm_lock.h`).

The C code manages one shared segment (`shm_struct_t`) holding a magic
number, a segment-wide allocation mutex, a group count (`num_bitmaps`),
a lock count (`num_locks`), and `num_bitmaps` lock groups, each with one
32-bit allocation bitmap and 32 per-slot mutexes.

Machine integers are embedded as `Nat` with explicit `% 2 ^ 32` where the
C performs a truncating store into a `uint32_t`.  Fallible functions
return an `Int` code exactly as the C does (non-negative on success,
`-errno` on failure), paired with the post state.  Blocking calls are
embedded with result type `Option`: `none` means the call does not return
(it blocks on a mutex held by another execution context, or, for states
that violate the segment invariants, it hits an out-of-bounds access that
is undefined behavior in the C).

The POSIX robust-mutex primitives (`pthread_mutex_lock`, `trylock`,
`consistent`, `unlock`) are external to the repository; they are modelled
here by a small state machine following the POSIX contract the source
relies on: locking an abandoned robust mutex returns `EOWNERDEAD` and
hands the caller the (inconsistent) mutex; `pthread_mutex_consistent`
then marks it consistent; a contended trylock returns `EBUSY`.  The field
`consistentFault` injects an environment fault into the
`pthread_mutex_consistent` call (racing recoverer or corrupted mutex),
which cannot arise in a deterministic sequential model but is explicitly
handled by the source.
-/


/-- Linux errno values used by the source. -/
def EINVAL : Int := 22

def ENOENT : Int := 2

def EEXIST : Int := 17

def EBUSY : Int := 16

def EPERM : Int := 1

def ENOSPC : Int := 28

def EBADF : Int := 9

def EFAULT : Int := 14

def ERANGE : Int := 34

def EOWNERDEAD : Int := 130

def ENOTRECOVERABLE : Int := 131

/-- MAGIC constant from shm_lock.h. -/
def MAGIC : Nat := 0x87D1

/-- BITMAP_SIZE from shm_lock.h: bits in a `bitmap_t` (uint32_t). -/
def BITMAP_SIZE : Nat := 32

/-- State of one POSIX robust mutex.  `inconsistent` is the state after a
terminated holder's mutex has been handed to a new owner via `EOWNERDEAD`
but before `pthread_mutex_consistent` has been called. -/
inductive MutexState where
  | unlocked : MutexState
  | locked : Nat → MutexState
  | abandoned : MutexState
  | inconsistent : Nat → MutexState
  | notRecoverable : MutexState
deriving DecidableEq

/-- A POSIX robust mutex.  `consistentFault` is an environment-injected
failure code for the next `pthread_mutex_consistent` call (`none` in a
healthy segment). -/
structure Mutex where
  state : MutexState
  consistentFault : Option Nat
deriving DecidableEq

/-- Mutex as initialized by `pthread_mutex_init` in `setup_lock_shm`. -/
def mutexInit : Mutex := { state := .unlocked, consistentFault := none }

/-- Model of `pthread_mutex_lock` on a robust mutex, called by `caller`.
`none` means the call blocks (mutex held by another context, or a NORMAL
mutex re-locked by its own holder, which self-deadlocks). -/
def pthread_mutex_lock_model (m : Mutex) (caller : Nat) : Option (Int × Mutex) :=
  match m.state with
  | .unlocked => some (0, { m with state := .locked caller })
  | .abandoned => some (EOWNERDEAD, { m with state := .inconsistent caller })
  | .notRecoverable => some (ENOTRECOVERABLE, m)
  | .locked _ => none
  | .inconsistent _ => none

/-- Model of `pthread_mutex_trylock` on a robust mutex: never blocks,
returns `EBUSY` when the mutex is held. -/
def pthread_mutex_trylock_model (m : Mutex) (caller : Nat) : Int × Mutex :=
  match m.state with
  | .unlocked => (0, { m with state := .locked caller })
  | .abandoned => (EOWNERDEAD, { m with state := .inconsistent caller })
  | .notRecoverable => (ENOTRECOVERABLE, m)
  | .locked _ => (EBUSY, m)
  | .inconsistent _ => (EBUSY, m)

/-- Model of `pthread_mutex_consistent`: succeeds when the caller holds
the mutex in the inconsistent state, unless the environment injects a
fault. -/
def pthread_mutex_consistent_model (m : Mutex) (caller : Nat) : Int × Mutex :=
  match m.consistentFault with
  | some e => ((e : Int), m)
  | none =>
    match m.state with
    | .inconsistent h =>
      if h = caller then (0, { m with state := .locked caller }) else (EINVAL, m)
    | _ => (EINVAL, m)

/-- Model of `pthread_mutex_unlock`: succeeds for the holder; unlocking
an inconsistent mutex without having marked it consistent makes it
permanently unrecoverable (POSIX robust-mutex rule). -/
def pthread_mutex_unlock_model (m : Mutex) (caller : Nat) : Int × Mutex :=
  match m.state with
  | .locked h =>
    if h = caller then (0, { m with state := .unlocked }) else (EPERM, m)
  | .inconsistent h =>
    if h = caller then (0, { m with state := .notRecoverable }) else (EPERM, m)
  | _ => (EPERM, m)

/-- Embedding of `take_mutex` from shm_lock.c.  The source retries the
lock call while it returns `EAGAIN`; the modelled primitives never return
`EAGAIN`, so the do-while body runs exactly once.  On `EOWNERDEAD` the
previous owner died holding the mutex: the source takes it for itself by
calling `pthread_mutex_consistent`, and if that call itself fails it
returns that failure instead of looping back to retry the lock. -/
def take_mutex (m : Mutex) (caller : Nat) (trylock : Bool) : Option (Int × Mutex) :=
  let attempt : Option (Int × Mutex) :=
    if trylock then some (pthread_mutex_trylock_model m caller)
    else pthread_mutex_lock_model m caller
  match attempt with
  | none => none
  | some (ret_code, m1) =>
    if ret_code = EOWNERDEAD then
      let (ret_code2, m2) := pthread_mutex_consistent_model m1 caller
      if ret_code2 ≠ 0 then some (ret_code2, m2)
      else some (0, m2)
    else if ret_code ≠ 0 then some (ret_code, m1)
    else some (0, m1)

/-- Embedding of `release_mutex` from shm_lock.c (the `EAGAIN` retry loop
runs once, as for `take_mutex`). -/
def release_mutex (m : Mutex) (caller : Nat) : Int × Mutex :=
  let (ret_code, m1) := pthread_mutex_unlock_model m caller
  if ret_code ≠ 0 then (ret_code, m1) else (0, m1)

/-- One `lock_group_t`: a 32-bit occupancy bitmap plus 32 per-slot
mutexes. -/
structure LockGroup where
  bitmap : Nat
  locks : List Mutex
deriving DecidableEq

/-- The `shm_struct_t` segment header plus its trailing groups. -/
structure ShmStruct where
  magic : Nat
  unused : Nat
  segment_lock : Mutex
  num_bitmaps : Nat
  num_locks : Nat
  locks : List LockGroup
deriving DecidableEq

/-- Well-formedness invariants a segment produced by `setup_lock_shm`
satisfies: the group list has `num_bitmaps` entries, `num_locks` is
`32 * num_bitmaps` (both stored fields are `uint32_t` values), and every
group has a 32-bit bitmap and 32 slot mutexes. -/
def ShmWF (s : ShmStruct) : Prop :=
  s.locks.length = s.num_bitmaps ∧
  s.num_locks = 32 * s.num_bitmaps ∧
  ∀ g ∈ s.locks, g.bitmap < 2 ^ 32 ∧ g.locks.length = 32

instance (s : ShmStruct) : Decidable (ShmWF s) := by
  unfold ShmWF; infer_instance

/-- Modelled from the spec: validity of a shared-memory namespace
identifier, enforced in the real system by `shm_open` (libc), which is
outside this repository.  Spec: the name must begin with exactly one
path-separator character, contain no further separators, and total at
most 255 bytes including the terminating null. -/
def valid_shm_name (p : List Char) : Bool :=
  match p with
  | [] => false
  | c :: rest => c = '/' && rest.all (fun d => d ≠ '/') && p.length + 1 ≤ 255

/-- Embedding of `setup_lock_shm`.  `path` is `none` for a NULL pointer;
`exists_already` says whether the name is already bound in the
shared-memory namespace (`shm_open` with `O_CREAT|O_EXCL` then fails with
`EEXIST`).  The OS-level failures of `ftruncate`/`mmap` and of the
`pthread_mutexattr`/`pthread_mutex_init` calls are environmental and not
modelled: the claims under verification concern the argument validation
and the initialized field values.  The store `shm->num_locks =
num_bitmaps * BITMAP_SIZE` truncates into a `uint32_t` field, hence the
`% 2 ^ 32`. -/
def setup_lock_shm (path : Option (List Char)) (num_locks : Nat)
    (exists_already : Bool) : Except Int ShmStruct :=
  if num_locks = 0 then .error (-EINVAL)
  else
    match path with
    | none => .error (-EINVAL)
    | some p =>
      let num_bitmaps :=
        num_locks / BITMAP_SIZE + (if num_locks % BITMAP_SIZE ≠ 0 then 1 else 0)
      if ¬ valid_shm_name p then .error (-EINVAL)
      else if exists_already then .error (-EEXIST)
      else
        .ok { magic := MAGIC
              unused := 0
              segment_lock := mutexInit
              num_bitmaps := num_bitmaps
              num_locks := num_bitmaps * BITMAP_SIZE % 2 ^ 32
              locks := List.replicate num_bitmaps
                { bitmap := 0, locks := List.replicate 32 mutexInit } }

/-- Embedding of `open_lock_shm`.  `existing` is the segment currently
bound to the name (`none` when `shm_open` without `O_CREAT` fails with
`ENOENT`).  The comparison `shm->num_locks != num_bitmaps * BITMAP_SIZE`
is carried out after integer promotion to `size_t`, so the product is NOT
truncated here. -/
def open_lock_shm (path : Option (List Char)) (num_locks : Nat)
    (existing : Option ShmStruct) : Except Int ShmStruct :=
  if num_locks = 0 then .error (-EINVAL)
  else
    match path with
    | none => .error (-EINVAL)
    | some p =>
      let num_bitmaps :=
        num_locks / BITMAP_SIZE + (if num_locks % BITMAP_SIZE ≠ 0 then 1 else 0)
      if ¬ valid_shm_name p then .error (-EINVAL)
      else
        match existing with
        | none => .error (-ENOENT)
        | some shm =>
          if shm.magic ≠ MAGIC then .error (-EBADF)
          else if shm.num_locks ≠ num_bitmaps * BITMAP_SIZE then .error (-ERANGE)
          else .ok shm

/-- A concrete valid segment name used by witnesses. -/
def shmName : List Char := ['/', 'l', 'o', 'c', 'k', 's']

/-- A well-formed one-group segment with 32 locks and an empty bitmap. -/
def seg32 : ShmStruct :=
  { magic := MAGIC
    unused := 0
    segment_lock := mutexInit
    num_bitmaps := 1
    num_locks := 32
    locks := [{ bitmap := 0, locks := List.replicate 32 mutexInit }] }

/-- Replace the group at index `i` by `f` of it (identity out of range);
used to embed in-place stores to `shm->locks[i]`. -/
def modify_group (groups : List LockGroup) (i : Nat) (f : LockGroup → LockGroup) :
    List LockGroup :=
  match groups, i with
  | [], _ => []
  | g :: gs, 0 => f g :: gs
  | g :: gs, n + 1 => g :: modify_group gs n f

/-- Read the slot mutex `shm->locks[gi].locks[bi]`. -/
def get_slot (s : ShmStruct) (gi bi : Nat) : Option Mutex :=
  (s.locks.get? gi).bind fun g => g.locks.get? bi

/-- Write the slot mutex `shm->locks[gi].locks[bi]`. -/
def set_slot (s : ShmStruct) (gi bi : Nat) (m : Mutex) : ShmStruct :=
  { s with locks := modify_group s.locks gi (fun g => { g with locks := g.locks.set bi m }) }

/-- The list of all group bitmaps of a segment. -/
def bitmaps (s : ShmStruct) : List Nat :=
  s.locks.map fun g => g.bitmap

/-- Inner loop of `allocate_semaphore`: starting from bit `pos`, find the
first position whose bit in `bitmap` is zero.  The C iterates a mask
`test_map = 1 << pos` until it shifts out to zero, i.e. up to `pos = 31`;
`(test_map & bitmap) == 0` is `testBit bitmap pos = false`. -/
def scan_bits_from (bitmap : Nat) (pos fuel : Nat) : Option Nat :=
  match fuel with
  | 0 => none
  | f + 1 =>
    if bitmap.testBit pos then scan_bits_from bitmap (pos + 1) f else some pos

/-- The inner loop entered with `test_map = 1`, i.e. `pos = 0`; the mask
shifts out to zero after `32 - pos` iterations. -/
def scan_bits (bitmap : Nat) (pos : Nat) : Option Nat :=
  scan_bits_from bitmap pos (32 - pos)

/-- Outer loop of `allocate_semaphore`: scan groups from index `i` for
the first whose bitmap is not full, and within it the first zero bit.
Out-of-range group access (possible only when `num_bitmaps` exceeds the
group list, which violates `ShmWF`) is undefined behavior in the C and
maps to `none`. -/
def alloc_scan_from (s : ShmStruct) (i fuel : Nat) : Option (Nat × Nat) :=
  match fuel with
  | 0 => none
  | f + 1 =>
    match s.locks.get? i with
    | none => none
    | some g =>
      if g.bitmap ≠ 0xFFFFFFFF then
        match scan_bits g.bitmap 0 with
        | some pos => some (i, pos)
        | none => alloc_scan_from s (i + 1) f
      else alloc_scan_from s (i + 1) f

/-- The outer loop runs `i` from 0 while `i < num_bitmaps`, so exactly
`num_bitmaps - i` iterations remain from index `i`. -/
def alloc_scan (s : ShmStruct) (i : Nat) : Option (Nat × Nat) :=
  alloc_scan_from s i (s.num_bitmaps - i)

/-- Embedding of `allocate_semaphore`.  Takes the segment lock, scans for
the lowest free index, sets its bit, releases the lock and returns the
index; returns `-ENOSPC` when every bitmap is full.  The outer `Option`
is `none` when the segment-lock acquisition blocks (or on undefined
out-of-range access); the inner state is `none` for a NULL `shm`. -/
def allocate_semaphore (shm : Option ShmStruct) (caller : Nat) :
    Option (Int × Option ShmStruct) :=
  match shm with
  | none => some (-EINVAL, none)
  | some s =>
    match take_mutex s.segment_lock caller false with
    | none => none
    | some (ret_code, m1) =>
      if ret_code ≠ 0 then some (-ret_code, some { s with segment_lock := m1 })
      else
        let s1 := { s with segment_lock := m1 }
        match alloc_scan s1 0 with
        | some (i, pos) =>
          let sem_number : Int := ((BITMAP_SIZE * i + pos : Nat) : Int)
          let newlocks := modify_group s1.locks i
            (fun g => { g with bitmap := g.bitmap ||| 2 ^ pos })
          let s2 := { s1 with locks := newlocks }
          let (ret_code2, m2) := release_mutex s2.segment_lock caller
          if ret_code2 ≠ 0 then some (-ret_code2, some { s2 with segment_lock := m2 })
          else some (sem_number, some { s2 with segment_lock := m2 })
        | none =>
          let (ret_code2, m2) := release_mutex s1.segment_lock caller
          if ret_code2 ≠ 0 then some (-ret_code2, some { s1 with segment_lock := m2 })
          else some (-ENOSPC, some { s1 with segment_lock := m2 })

/-- Embedding of `allocate_given_semaphore`: validates the index, takes
the segment lock, fails with `-EEXIST` when the bit is already set, else
sets it. -/
def allocate_given_semaphore (shm : Option ShmStruct) (caller : Nat)
    (sem_index : Nat) : Option (Int × Option ShmStruct) :=
  match shm with
  | none => some (-EINVAL, none)
  | some s =>
    if s.num_locks ≤ sem_index then some (-EINVAL, some s)
    else
      let bitmap_index := sem_index / BITMAP_SIZE
      let index_in_bitmap := sem_index % BITMAP_SIZE
      if s.num_bitmaps ≤ bitmap_index then some (-EFAULT, some s)
      else
        let test_map : Nat := 2 ^ index_in_bitmap
        match take_mutex s.segment_lock caller false with
        | none => none
        | some (ret_code, m1) =>
          if ret_code ≠ 0 then some (-ret_code, some { s with segment_lock := m1 })
          else
            let s1 := { s with segment_lock := m1 }
            match s1.locks.get? bitmap_index with
            | none => none
            | some g =>
              if test_map &&& g.bitmap ≠ 0 then
                let (ret_code2, m2) := release_mutex s1.segment_lock caller
                if ret_code2 ≠ 0 then
                  some (-ret_code2, some { s1 with segment_lock := m2 })
                else some (-EEXIST, some { s1 with segment_lock := m2 })
              else
                let newlocks := modify_group s1.locks bitmap_index
                  (fun g2 => { g2 with bitmap := g2.bitmap ||| test_map })
                let s2 := { s1 with locks := newlocks }
                let (ret_code2, m2) := release_mutex s2.segment_lock caller
                if ret_code2 ≠ 0 then
                  some (-ret_code2, some { s2 with segment_lock := m2 })
                else some (0, some { s2 with segment_lock := m2 })

/-- Embedding of `deallocate_semaphore`: validates the index, takes the
segment lock, fails with `-ENOENT` when the bit is already clear, else
clears it with `bitmap & ~test_map` (`~` on a `uint32_t` is xor with
`0xFFFFFFFF`). -/
def deallocate_semaphore (shm : Option ShmStruct) (caller : Nat)
    (sem_index : Nat) : Option (Int × Option ShmStruct) :=
  match shm with
  | none => some (-EINVAL, none)
  | some s =>
    if s.num_locks ≤ sem_index then some (-EINVAL, some s)
    else
      let bitmap_index := sem_index / BITMAP_SIZE
      let index_in_bitmap := sem_index % BITMAP_SIZE
      if s.num_bitmaps ≤ bitmap_index then some (-EFAULT, some s)
      else
        let test_map : Nat := 2 ^ index_in_bitmap
        match take_mutex s.segment_lock caller false with
        | none => none
        | some (ret_code, m1) =>
          if ret_code ≠ 0 then some (-ret_code, some { s with segment_lock := m1 })
          else
            let s1 := { s with segment_lock := m1 }
            match s1.locks.get? bitmap_index with
            | none => none
            | some g =>
              if test_map &&& g.bitmap = 0 then
                let (ret_code2, m2) := release_mutex s1.segment_lock caller
                if ret_code2 ≠ 0 then
                  some (-ret_code2, some { s1 with segment_lock := m2 })
                else some (-ENOENT, some { s1 with segment_lock := m2 })
              else
                let newlocks := modify_group s1.locks bitmap_index
                  (fun g2 => { g2 with bitmap := g2.bitmap &&& (0xFFFFFFFF ^^^ test_map) })
                let s2 := { s1 with locks := newlocks }
                let (ret_code2, m2) := release_mutex s2.segment_lock caller
                if ret_code2 ≠ 0 then
                  some (-ret_code2, some { s2 with segment_lock := m2 })
                else some (0, some { s2 with segment_lock := m2 })

/-- Embedding of `lock_semaphore`: validates the index and blocks taking
the slot mutex; returns `-1 * take_mutex(...)`. -/
def lock_semaphore (shm : Option ShmStruct) (caller : Nat) (sem_index : Nat) :
    Option (Int × Option ShmStruct) :=
  match shm with
  | none => some (-EINVAL, none)
  | some s =>
    if s.num_locks ≤ sem_index then some (-EINVAL, some s)
    else
      let bitmap_index := sem_index / BITMAP_SIZE
      let index_in_bitmap := sem_index % BITMAP_SIZE
      match get_slot s bitmap_index index_in_bitmap with
      | none => none
      | some m =>
        match take_mutex m caller false with
        | none => none
        | some (ret_code, m1) =>
          some (-ret_code, some (set_slot s bitmap_index index_in_bitmap m1))

/-- Embedding of `unlock_semaphore`: validates the index and releases the
slot mutex; returns `-1 * release_mutex(...)`. -/
def unlock_semaphore (shm : Option ShmStruct) (caller : Nat) (sem_index : Nat) :
    Option (Int × Option ShmStruct) :=
  match shm with
  | none => some (-EINVAL, none)
  | some s =>
    if s.num_locks ≤ sem_index then some (-EINVAL, some s)
    else
      let bitmap_index := sem_index / BITMAP_SIZE
      let index_in_bitmap := sem_index % BITMAP_SIZE
      match get_slot s bitmap_index index_in_bitmap with
      | none => none
      | some m =>
        let (ret_code, m1) := release_mutex m caller
        some (-ret_code, some (set_slot s bitmap_index index_in_bitmap m1))

/-- Embedding of `try_lock`: non-blocking take of the slot mutex; `EBUSY`
reports 0 (held), success releases immediately and reports 1 (free). -/
def try_lock (shm : Option ShmStruct) (caller : Nat) (sem_index : Nat) :
    Option (Int × Option ShmStruct) :=
  match shm with
  | none => some (-EINVAL, none)
  | some s =>
    if s.num_locks ≤ sem_index then some (-EINVAL, some s)
    else
      let bitmap_index := sem_index / BITMAP_SIZE
      let index_in_bitmap := sem_index % BITMAP_SIZE
      match get_slot s bitmap_index index_in_bitmap with
      | none => none
      | some m =>
        match take_mutex m caller true with
        | none => none
        | some (ret_code, m1) =>
          let s1 := set_slot s bitmap_index index_in_bitmap m1
          if ret_code = EBUSY then some (0, some s1)
          else if ret_code ≠ 0 then some (-ret_code, some s1)
          else
            let (ret_code2, m2) := release_mutex m1 caller
            let s2 := set_slot s bitmap_index index_in_bitmap m2
            if ret_code2 ≠ 0 then some (-ret_code2, some s2)
            else some (1, some s2)

/-- Kernighan bit-count loop from `available_locks`: repeatedly clears
the lowest set bit, counting iterations. -/
def kernighan_go (m : Nat) (fuel : Nat) : Nat :=
  match fuel with
  | 0 => 0
  | f + 1 => if m = 0 then 0 else 1 + kernighan_go (m &&& (m - 1)) f

/-- The loop variable strictly decreases (`m & (m-1) < m` for `m ≠ 0`),
so `m` itself bounds the iteration count. -/
def kernighan_count (m : Nat) : Nat :=
  kernighan_go m m

/-- Group loop of `available_locks`: sums `32 - popcount(bitmap)` over
the groups, with the source's short-circuit for an all-zero bitmap. -/
def avail_loop_from (s : ShmStruct) (i : Nat) (acc : Nat) (fuel : Nat) : Option Nat :=
  match fuel with
  | 0 => some acc
  | f + 1 =>
    match s.locks.get? i with
    | none => none
    | some g =>
      if g.bitmap = 0 then avail_loop_from s (i + 1) (acc + 32) f
      else avail_loop_from s (i + 1) (acc + (32 - kernighan_count g.bitmap)) f

/-- The loop runs `i` from 0 while `i < num_bitmaps`. -/
def avail_loop (s : ShmStruct) (i : Nat) (acc : Nat) : Option Nat :=
  avail_loop_from s i acc (s.num_bitmaps - i)

/-- Embedding of `available_locks`: takes the segment lock, counts free
bits over all groups, releases the lock and returns the count. -/
def available_locks (shm : Option ShmStruct) (caller : Nat) :
    Option (Int × Option ShmStruct) :=
  match shm with
  | none => some (-EINVAL, none)
  | some s =>
    match take_mutex s.segment_lock caller false with
    | none => none
    | some (ret_code, m1) =>
      if ret_code ≠ 0 then some (-ret_code, some { s with segment_lock := m1 })
      else
        let s1 := { s with segment_lock := m1 }
        match avail_loop s1 0 0 with
        | none => none
        | some free_locks =>
          let (ret_code2, m2) := release_mutex s1.segment_lock caller
          if ret_code2 ≠ 0 then some (-ret_code2, some { s1 with segment_lock := m2 })
          else some ((free_locks : Int), some { s1 with segment_lock := m2 })

/-- An empty, freshly created segment of capacity 64 (two groups). -/
def seg64 : ShmStruct :=
  { magic := MAGIC
    unused := 0
    segment_lock := mutexInit
    num_bitmaps := 2
    num_locks := 64
    locks := List.replicate 2 { bitmap := 0, locks := List.replicate 32 mutexInit } }

/-- Run `n` successive `allocate_semaphore` calls, collecting the
returned codes; `none` if any call blocks or hits undefined behavior. -/
def alloc_run (s : ShmStruct) (caller : Nat) : Nat → Option (List Int × ShmStruct)
  | 0 => some ([], s)
  | n + 1 =>
    match allocate_semaphore (some s) caller with
    | some (r, some s1) =>
      match alloc_run s1 caller n with
      | some (rs, s2) => some (r :: rs, s2)
      | none => none
    | _ => none

/-- A copy of `seg32` whose slot 0 is held by caller 7. -/
def segHeld : ShmStruct := set_slot seg32 0 0 { state := .locked 7, consistentFault := none }

/-- A copy of `seg32` whose slot 0 has its allocation bit set. -/
def segAlloc : ShmStruct :=
  { seg32 with locks := [{ bitmap := 1, locks := List.replicate 32 mutexInit }] }

/-- A two-group segment with group 0 full and group 1 holding bits
0, 1, 2. -/
def segC1 : ShmStruct :=
  { magic := MAGIC
    unused := 0
    segment_lock := mutexInit
    num_bitmaps := 2
    num_locks := 64
    locks := [{ bitmap := 0xFFFFFFFF, locks := List.replicate 32 mutexInit },
              { bitmap := 7, locks := List.replicate 32 mutexInit }] }

/-- A two-group segment with every bitmap full. -/
def segFull : ShmStruct :=
  { magic := MAGIC
    unused := 0
    segment_lock := mutexInit
    num_bitmaps := 2
    num_locks := 64
    locks := List.replicate 2 { bitmap := 0xFFFFFFFF, locks := List.replicate 32 mutexInit } }

/-- Exactly one bit of exactly one group changed: slot `k`'s bit became
`newval` (having been its negation), every other bit of that group, that
group's mutexes, and every other group are untouched. -/
def one_bit_change (s s' : ShmStruct) (k : Nat) (newval : Bool) : Prop :=
  (∀ j, j ≠ k / 32 → s'.locks.get? j = s.locks.get? j) ∧
  ∃ g g', s.locks.get? (k / 32) = some g ∧ s'.locks.get? (k / 32) = some g' ∧
    g'.locks = g.locks ∧ g.bitmap.testBit (k % 32) = (!newval) ∧
    ∀ b2, g'.bitmap.testBit b2 =
      (if b2 = k % 32 then newval else g.bitmap.testBit b2)

/-- The state of `segC1` after allocating index 35 (group 1 gains
bit 3). -/
def segC1after : ShmStruct :=
  { segC1 with locks := [{ bitmap := 0xFFFFFFFF, locks := List.replicate 32 mutexInit },
                         { bitmap := 15, locks := List.replicate 32 mutexInit }] }

/-- The binary digit sum (the mathematical popcount). -/
def digitSum (m : Nat) : Nat := (Nat.digits 2 m).sum

/-- C4: an acquisition (blocking or trylock) that observes the abandoned
state marks the lock consistent and succeeds, the acquirer becoming the
new holder; if the marking-consistent step itself fails with `e`, the
acquisition returns exactly that failure, with no further lock attempt. -/
theorem take_mutex_abandoned_recovery (m : Mutex) (c : Nat) (b : Bool)
    (h : m.state = .abandoned) :
    (m.consistentFault = none →
      take_mutex m c b = some (0, { m with state := .locked c })) ∧
    (∀ e : Nat, m.consistentFault = some e → e ≠ 0 →
      take_mutex m c b = some ((e : Int), { m with state := .inconsistent c })) := by
  constructor
  · intro hf
    cases b <;>
      simp [take_mutex, pthread_mutex_lock_model, pthread_mutex_trylock_model,
        pthread_mutex_consistent_model, h, hf, EOWNERDEAD]
  · intro e hf he
    have he' : (e : Int) ≠ 0 := by exact_mod_cast he
    have hne : (e : Int) ≠ EOWNERDEAD ∨ True := Or.inr trivial
    cases b <;>
      simp [take_mutex, pthread_mutex_lock_model, pthread_mutex_trylock_model,
        pthread_mutex_consistent_model, h, hf, he', EOWNERDEAD]

/-- Witness for C4 at concrete mutexes: a healthy abandoned mutex is
recovered and held by caller 1; one whose consistent step faults with
`EINVAL` (22) propagates exactly that error. -/
theorem take_mutex_abandoned_recovery_witness :
    take_mutex { state := .abandoned, consistentFault := none } 1 false =
      some (0, { state := .locked 1, consistentFault := none }) ∧
    take_mutex { state := .abandoned, consistentFault := some 22 } 1 true =
      some ((22 : Int), { state := .inconsistent 1, consistentFault := some 22 }) :=
  ⟨(take_mutex_abandoned_recovery
      { state := .abandoned, consistentFault := none } 1 false rfl).1 rfl,
   (take_mutex_abandoned_recovery
      { state := .abandoned, consistentFault := some 22 } 1 true rfl).2 22 rfl
      (by decide)⟩

/-- Rounding-up division: the source's `n / 32 + (n % 32 != 0 ? 1 : 0)`
equals `⌈n / 32⌉`. -/
theorem ceil32_eq (n : Nat) :
    n / 32 + (if n % 32 ≠ 0 then 1 else 0) = (n + 31) / 32 := by
  split <;> omega

/-- C7: `setup_lock_shm` rejects a zero lock count, a NULL path, and a
malformed name (one that is not a single shared-memory namespace
identifier of at most 255 bytes including the terminating null) with
`-EINVAL`, creating no segment state. -/
theorem create_rejects_invalid_arguments (path : Option (List Char))
    (p : List Char) (n : Nat) (ex : Bool) :
    setup_lock_shm path 0 ex = .error (-EINVAL) ∧
    setup_lock_shm none n ex = .error (-EINVAL) ∧
    (valid_shm_name p = false → setup_lock_shm (some p) n ex = .error (-EINVAL)) := by
  refine ⟨rfl, ?_, ?_⟩
  · by_cases hn : n = 0 <;> simp [setup_lock_shm, hn]
  · intro hv
    by_cases hn : n = 0 <;> simp [setup_lock_shm, hn, hv]

/-- Witness for C7: zero count, NULL path, and the separator-less name
consisting of the single byte a are each rejected with `-EINVAL`. -/
theorem create_rejects_invalid_arguments_witness :
    setup_lock_shm (some shmName) 0 false = .error (-EINVAL) ∧
    setup_lock_shm none 7 false = .error (-EINVAL) ∧
    setup_lock_shm (some ['a']) 7 false = .error (-EINVAL) :=
  ⟨(create_rejects_invalid_arguments (some shmName) ['a'] 7 false).1,
   (create_rejects_invalid_arguments (some shmName) ['a'] 7 false).2.1,
   (create_rejects_invalid_arguments (some shmName) ['a'] 7 false).2.2 (by decide)⟩

/-- C3 counterexample: the claim asserts the stored lock count is
`groupCount * 32 ≥ requested` in 32-bit unsigned arithmetic, but at the
accepted request `4294967295` the product `134217728 * 32 = 2 ^ 32`
truncates to 0 in the `uint32_t` field, which is less than the request. -/
theorem create_lockcount_overflow_cex :
    (setup_lock_shm (some shmName) 4294967295 false).toOption.map
        (fun s => s.num_bitmaps) = some 134217728 ∧
    (setup_lock_shm (some shmName) 4294967295 false).toOption.map
        (fun s => s.num_locks) = some 0 ∧
    ¬ (4294967295 ≤ (0 : Nat)) :=
  ⟨rfl, rfl, by decide⟩

/-- C3 (amended): for every accepted request `n` with `0 < n` and
`n ≤ 2 ^ 32 - 32` (so that `⌈n / 32⌉ * 32` fits in 32 bits), the stored
group count is `⌈n / 32⌉` and the stored lock count is exactly
`groupCount * 32 ≥ n`; for larger `n` the 32-bit store truncates. -/
theorem create_capacity_arithmetic (p : List Char) (n : Nat)
    (hn : 0 < n) (hv : valid_shm_name p = true) (hsmall : n ≤ 2 ^ 32 - 32) :
    ∃ s, setup_lock_shm (some p) n false = .ok s ∧
      s.num_bitmaps = (n + 31) / 32 ∧
      s.num_locks = s.num_bitmaps * 32 ∧
      n ≤ s.num_locks := by
  have hn0 : n ≠ 0 := Nat.pos_iff_ne_zero.mp hn
  have hceil : n / 32 + (if n % 32 ≠ 0 then 1 else 0) = (n + 31) / 32 := ceil32_eq n
  have hfit : ((n + 31) / 32) * 32 < 2 ^ 32 := by
    have : (n + 31) / 32 ≤ (2 ^ 32 - 1) / 32 := Nat.div_le_div_right (by omega)
    omega
  have hok : setup_lock_shm (some p) n false = .ok
      { magic := MAGIC
        unused := 0
        segment_lock := mutexInit
        num_bitmaps := n / BITMAP_SIZE + (if n % BITMAP_SIZE ≠ 0 then 1 else 0)
        num_locks := (n / BITMAP_SIZE + (if n % BITMAP_SIZE ≠ 0 then 1 else 0)) *
          BITMAP_SIZE % 2 ^ 32
        locks := List.replicate (n / BITMAP_SIZE + (if n % BITMAP_SIZE ≠ 0 then 1 else 0))
          { bitmap := 0, locks := List.replicate 32 mutexInit } } := by
    simp [setup_lock_shm, hn0, hv]
  refine ⟨_, hok, ?_, ?_, ?_⟩
  · simpa [BITMAP_SIZE] using hceil
  · simp only [BITMAP_SIZE, hceil]
    exact Nat.mod_eq_of_lt hfit
  · simp only [BITMAP_SIZE, hceil, Nat.mod_eq_of_lt hfit]
    omega

/-- Witness for C3 at `n = 100`: four groups, stored lock count
`128 ≥ 100`. -/
theorem create_capacity_arithmetic_witness :
    ∃ s, setup_lock_shm (some shmName) 100 false = .ok s ∧
      s.num_bitmaps = (100 + 31) / 32 ∧
      s.num_locks = s.num_bitmaps * 32 ∧
      100 ≤ s.num_locks :=
  create_capacity_arithmetic shmName 100 (by decide) (by decide) (by decide)

/-- C2 counterexample: the claim asserts `open` fails with
CapacityMismatch whenever the stored lock count differs from the request
exactly, but requesting 5 locks against a segment storing 32 succeeds,
because the source compares the stored count against the request rounded
up to a whole number of 32-slot groups. -/
theorem open_capacity_rounds_up_cex :
    open_lock_shm (some shmName) 5 (some seg32) = .ok seg32 ∧
    seg32.num_locks ≠ 5 :=
  ⟨rfl, by decide⟩

/-- C2 (amended): for every existing segment and request `n > 0`, `open`
validates the magic constant first, failing with `-EBADF` (BadFormat) on
mismatch regardless of capacities, and then fails with `-ERANGE`
(CapacityMismatch) whenever the stored lock count is not exactly the
request rounded up to a whole number of groups, `⌈n / 32⌉ * 32`;
otherwise it succeeds and returns the segment. -/
theorem open_validates_magic_then_rounded_capacity (p : List Char) (n : Nat)
    (shm : ShmStruct) (hv : valid_shm_name p = true) (hn : n ≠ 0) :
    (shm.magic ≠ MAGIC →
      open_lock_shm (some p) n (some shm) = .error (-EBADF)) ∧
    (shm.magic = MAGIC → shm.num_locks ≠ ((n + 31) / 32) * 32 →
      open_lock_shm (some p) n (some shm) = .error (-ERANGE)) ∧
    (shm.magic = MAGIC → shm.num_locks = ((n + 31) / 32) * 32 →
      open_lock_shm (some p) n (some shm) = .ok shm) := by
  have hceil : n / 32 + (if n % 32 ≠ 0 then 1 else 0) = (n + 31) / 32 := ceil32_eq n
  refine ⟨fun hm => ?_, fun hm hc => ?_, fun hm hc => ?_⟩
  · simp [open_lock_shm, hn, hv, hm]
  · simp only [open_lock_shm, hn, hv, hm, BITMAP_SIZE]
    simp
    split <;> omega
  · simp only [open_lock_shm, hn, hv, hm, BITMAP_SIZE]
    simp [hc]
    split <;> omega

/-- Witness for C2: bad magic gives `-EBADF`; requesting 40 against a
32-lock segment gives `-ERANGE` (rounded request 64); requesting 32
succeeds. -/
theorem open_validates_magic_then_rounded_capacity_witness :
    open_lock_shm (some shmName) 32 (some { seg32 with magic := 0 }) =
      .error (-EBADF) ∧
    open_lock_shm (some shmName) 40 (some seg32) = .error (-ERANGE) ∧
    open_lock_shm (some shmName) 32 (some seg32) = .ok seg32 :=
  ⟨(open_validates_magic_then_rounded_capacity shmName 32 { seg32 with magic := 0 }
      (by decide) (by decide)).1 (by decide),
   (open_validates_magic_then_rounded_capacity shmName 40 seg32
      (by decide) (by decide)).2.1 (by decide) (by decide),
   (open_validates_magic_then_rounded_capacity shmName 32 seg32
      (by decide) (by decide)).2.2 (by decide) (by decide)⟩

/-- Setting a list entry to the value it already holds is the identity. -/
theorem list_set_get_eq {α : Type} (l : List α) (i : Nat) (a : α)
    (h : l.get? i = some a) : l.set i a = l := by
  induction l generalizing i with
  | nil => simp at h
  | cons x xs ih =>
    cases i with
    | zero =>
      simp only [List.get?_cons_zero, Option.some.injEq] at h
      simp [h]
    | succ n =>
      simp only [List.get?_cons_succ] at h
      simp [List.set, ih n h]

theorem modify_group_get_ne (l : List LockGroup) (i j : Nat)
    (f : LockGroup → LockGroup) (h : j ≠ i) :
    (modify_group l i f).get? j = l.get? j := by
  induction l generalizing i j with
  | nil => simp [modify_group]
  | cons g gs ih =>
    cases i with
    | zero =>
      cases j with
      | zero => exact absurd rfl h
      | succ m => simp [modify_group]
    | succ n =>
      cases j with
      | zero => simp [modify_group]
      | succ m => simpa [modify_group] using ih n m (fun hc => h (by omega))

theorem modify_group_get_eq (l : List LockGroup) (i : Nat)
    (f : LockGroup → LockGroup) (g : LockGroup) (h : l.get? i = some g) :
    (modify_group l i f).get? i = some (f g) := by
  induction l generalizing i with
  | nil => simp at h
  | cons x xs ih =>
    cases i with
    | zero =>
      simp only [List.get?_cons_zero, Option.some.injEq] at h
      simp [modify_group, h]
    | succ n =>
      simp only [List.get?_cons_succ] at h
      simpa [modify_group] using ih n h

theorem modify_group_id (l : List LockGroup) (i : Nat)
    (f : LockGroup → LockGroup) (g : LockGroup) (h : l.get? i = some g)
    (hf : f g = g) : modify_group l i f = l := by
  induction l generalizing i with
  | nil => rfl
  | cons x xs ih =>
    cases i with
    | zero =>
      simp only [List.get?_cons_zero, Option.some.injEq] at h
      simp [modify_group, h, hf]
    | succ n =>
      simp only [List.get?_cons_succ] at h
      simp [modify_group, ih n h]

/-- A modification that leaves every bitmap unchanged leaves the list of
bitmaps unchanged. -/
theorem map_bitmap_modify_group (l : List LockGroup) (i : Nat)
    (f : LockGroup → LockGroup) (hf : ∀ g, (f g).bitmap = g.bitmap) :
    (modify_group l i f).map (fun g => g.bitmap) = l.map (fun g => g.bitmap) := by
  induction l generalizing i with
  | nil => rfl
  | cons g gs ih =>
    cases i with
    | zero => simp [modify_group, hf]
    | succ n => simp [modify_group, ih]

/-- Writing back the mutex read from a slot is the identity on segments. -/
theorem set_slot_self (s : ShmStruct) (gi bi : Nat) (m : Mutex)
    (h : get_slot s gi bi = some m) : set_slot s gi bi m = s := by
  unfold get_slot at h
  cases hg : s.locks.get? gi with
  | none => rw [hg] at h; simp at h
  | some g =>
    rw [hg] at h
    simp only [Option.some_bind] at h
    unfold set_slot
    rw [modify_group_id s.locks gi _ g hg (by simp [list_set_get_eq g.locks bi m h])]

/-- Slot-mutex writes do not change any bitmap. -/
theorem bitmaps_set_slot (s : ShmStruct) (gi bi : Nat) (m : Mutex) :
    bitmaps (set_slot s gi bi m) = bitmaps s := by
  unfold bitmaps set_slot
  exact map_bitmap_modify_group s.locks gi _ (fun g => rfl)

/-- In a well-formed segment every valid index designates a slot. -/
theorem get_slot_of_wf (s : ShmStruct) (hwf : ShmWF s) (i : Nat)
    (hi : i < s.num_locks) :
    ∃ g m, s.locks.get? (i / 32) = some g ∧ g.locks.get? (i % 32) = some m ∧
      get_slot s (i / 32) (i % 32) = some m := by
  obtain ⟨hlen, hnum, hg⟩ := hwf
  have hdiv : i / 32 < s.locks.length := by
    rw [hlen]
    omega
  have hget : s.locks.get? (i / 32) = some (s.locks.get ⟨i / 32, hdiv⟩) :=
    List.get?_eq_get hdiv
  have hmem : s.locks.get ⟨i / 32, hdiv⟩ ∈ s.locks := s.locks.get_mem _ _
  obtain ⟨-, hglen⟩ := hg _ hmem
  have hbi : i % 32 < (s.locks.get ⟨i / 32, hdiv⟩).locks.length := by
    rw [hglen]
    omega
  have hm := List.get?_eq_get hbi
  refine ⟨_, _, hget, hm, ?_⟩
  simp only [get_slot, hget, Option.some_bind, hm]

/-- `take_mutex` on an unlocked mutex locks it for the caller. -/
theorem take_mutex_unlocked (m : Mutex) (c : Nat) (b : Bool)
    (h : m.state = .unlocked) :
    take_mutex m c b = some (0, { m with state := .locked c }) := by
  cases b <;>
    simp [take_mutex, pthread_mutex_lock_model, pthread_mutex_trylock_model, h,
      EOWNERDEAD]

/-- `release_mutex` by the holder unlocks. -/
theorem release_mutex_locked (m : Mutex) (c : Nat) (h : m.state = .locked c) :
    release_mutex m c = (0, { m with state := .unlocked }) := by
  simp [release_mutex, pthread_mutex_unlock_model, h]

/-- After a successful `take_mutex` the caller holds the mutex (possibly
still inconsistent when the environment made `consistent` report a zero
code), and the fault flag is untouched. -/
theorem take_mutex_success_state (m : Mutex) (c : Nat) (b : Bool) (m1 : Mutex)
    (h : take_mutex m c b = some (0, m1)) :
    (m1.state = .locked c ∨ m1.state = .inconsistent c) ∧
      m1.consistentFault = m.consistentFault := by
  obtain ⟨st, cf⟩ := m
  cases st with
  | unlocked =>
    rw [take_mutex_unlocked _ c b rfl] at h
    simp at h
    subst h
    simp
  | locked h0 =>
    cases b <;>
      simp [take_mutex, pthread_mutex_lock_model, pthread_mutex_trylock_model,
        EOWNERDEAD, EBUSY] at h
  | notRecoverable =>
    cases b <;>
      simp [take_mutex, pthread_mutex_lock_model, pthread_mutex_trylock_model,
        EOWNERDEAD, ENOTRECOVERABLE] at h
  | inconsistent h0 =>
    cases b <;>
      simp [take_mutex, pthread_mutex_lock_model, pthread_mutex_trylock_model,
        EOWNERDEAD, EBUSY] at h
  | abandoned =>
    cases cf with
    | none =>
      rw [(take_mutex_abandoned_recovery ⟨.abandoned, none⟩ c b rfl).1 rfl] at h
      simp at h
      subst h
      simp
    | some e =>
      by_cases he : e = 0
      · subst he
        cases b <;>
          (simp [take_mutex, pthread_mutex_lock_model, pthread_mutex_trylock_model,
            pthread_mutex_consistent_model, EOWNERDEAD] at h;
            subst h;
            simp)
      · have he' : ((e : Nat) : Int) ≠ 0 := by exact_mod_cast he
        cases b <;>
          simp [take_mutex, pthread_mutex_lock_model, pthread_mutex_trylock_model,
            pthread_mutex_consistent_model, EOWNERDEAD, he'] at h

/-- A mutex held by the caller releases with code 0. -/
theorem release_mutex_of_held (m1 : Mutex) (c : Nat)
    (h : m1.state = .locked c ∨ m1.state = .inconsistent c) :
    ∃ m2, release_mutex m1 c = (0, m2) := by
  rcases h with h | h
  · exact ⟨{ m1 with state := .unlocked },
      by simp [release_mutex, pthread_mutex_unlock_model, h]⟩
  · exact ⟨{ m1 with state := .notRecoverable },
      by simp [release_mutex, pthread_mutex_unlock_model, h]⟩

/-- Every return code a successful-or-failing `take_mutex` produces is
non-negative (the pthread primitives return errno values). -/
theorem take_mutex_code_nonneg (m : Mutex) (c : Nat) (b : Bool) (r : Int)
    (m1 : Mutex) (h : take_mutex m c b = some (r, m1)) : 0 ≤ r := by
  obtain ⟨st, cf⟩ := m
  cases st with
  | unlocked =>
    rw [take_mutex_unlocked _ c b rfl] at h
    simp at h
    omega
  | locked h0 =>
    cases b <;>
      simp [take_mutex, pthread_mutex_lock_model, pthread_mutex_trylock_model,
        EOWNERDEAD, EBUSY] at h <;>
    omega
  | notRecoverable =>
    cases b <;>
      simp [take_mutex, pthread_mutex_lock_model, pthread_mutex_trylock_model,
        EOWNERDEAD, ENOTRECOVERABLE] at h <;>
    omega
  | inconsistent h0 =>
    cases b <;>
      simp [take_mutex, pthread_mutex_lock_model, pthread_mutex_trylock_model,
        EOWNERDEAD, EBUSY] at h <;>
    omega
  | abandoned =>
    cases cf with
    | none =>
      rw [(take_mutex_abandoned_recovery ⟨.abandoned, none⟩ c b rfl).1 rfl] at h
      simp at h
      omega
    | some e =>
      by_cases he : e = 0
      · subst he
        cases b <;>
          (simp [take_mutex, pthread_mutex_lock_model, pthread_mutex_trylock_model,
            pthread_mutex_consistent_model, EOWNERDEAD] at h;
            omega)
      · have he' : ((e : Nat) : Int) ≠ 0 := by exact_mod_cast he
        cases b <;>
          simp [take_mutex, pthread_mutex_lock_model, pthread_mutex_trylock_model,
            pthread_mutex_consistent_model, EOWNERDEAD, he'] at h <;>
          (obtain ⟨h1, -⟩ := h; subst h1; positivity)

/-- C6: `try_lock` on a free slot takes the lock, releases it at once,
reports 1 (Free) and leaves the segment exactly as it was; on a held slot
it reports 0 (Held) without blocking and without changing anything; an
out-of-range index yields `-EINVAL`, as does a NULL handle. -/
theorem try_lock_probe_semantics (s : ShmStruct) (hwf : ShmWF s) (c i : Nat)
    (hi : i < s.num_locks) :
    (∀ m, get_slot s (i / 32) (i % 32) = some m → m.state = .unlocked →
      try_lock (some s) c i = some (1, some s)) ∧
    (∀ m h0, get_slot s (i / 32) (i % 32) = some m → m.state = .locked h0 →
      try_lock (some s) c i = some (0, some s)) ∧
    (∀ j, s.num_locks ≤ j → try_lock (some s) c j = some (-EINVAL, some s)) ∧
    try_lock none c i = some (-EINVAL, none) := by
  have hnle : ¬ s.num_locks ≤ i := Nat.not_le.mpr hi
  refine ⟨?_, ?_, ?_, rfl⟩
  · intro m hm hst
    obtain ⟨st, cf⟩ := m
    simp only [Mutex.state] at hst
    subst hst
    have htake := take_mutex_unlocked ⟨.unlocked, cf⟩ c true rfl
    have hrel : release_mutex ⟨.locked c, cf⟩ c = (0, ⟨.unlocked, cf⟩) :=
      release_mutex_locked _ c rfl
    simp only [try_lock, BITMAP_SIZE, hnle, if_false, hm, htake, hrel]
    have hset : set_slot s (i / 32) (i % 32) ⟨.unlocked, cf⟩ = s :=
      set_slot_self s _ _ _ hm
    simp [hset, EBUSY]
  · intro m h0 hm hst
    obtain ⟨st, cf⟩ := m
    simp only [Mutex.state] at hst
    subst hst
    have htake : take_mutex ⟨.locked h0, cf⟩ c true = some (EBUSY, ⟨.locked h0, cf⟩) := by
      simp [take_mutex, pthread_mutex_trylock_model, EBUSY, EOWNERDEAD]
    have hset : set_slot s (i / 32) (i % 32) ⟨.locked h0, cf⟩ = s :=
      set_slot_self s _ _ _ hm
    simp [try_lock, BITMAP_SIZE, hnle, hm, htake, hset]
  · intro j hj
    simp [try_lock, hj]

/-- Witness for C6: probing free slot 3 reports 1 and preserves the
segment; probing the held slot 0 of `segHeld` reports 0; index 99 and a
NULL handle report `-EINVAL`. -/
theorem try_lock_probe_semantics_witness :
    try_lock (some seg32) 1 3 = some (1, some seg32) ∧
    try_lock (some segHeld) 1 0 = some (0, some segHeld) ∧
    try_lock (some seg32) 1 99 = some (-EINVAL, some seg32) ∧
    try_lock none 1 0 = some (-EINVAL, none) :=
  ⟨(try_lock_probe_semantics seg32 (by decide) 1 3 (by decide)).1
      { state := .unlocked, consistentFault := none } (by decide) rfl,
   (try_lock_probe_semantics segHeld (by decide) 1 0 (by decide)).2.1
      { state := .locked 7, consistentFault := none } 7 (by decide) rfl,
   (try_lock_probe_semantics seg32 (by decide) 1 3 (by decide)).2.2.1 99 (by decide),
   (try_lock_probe_semantics segHeld (by decide) 1 0 (by decide)).2.2.2⟩

/-- C5: lock state and allocation state are decoupled.  For every valid
index of every segment — whatever its allocation bitmaps hold —
`lock_semaphore` succeeds when the slot mutex is free and
`unlock_semaphore` succeeds when the caller holds it, and no
`lock_semaphore`, `unlock_semaphore` or `try_lock` call ever changes any
group's allocation bitmap; the bitmaps are touched only by the
allocate/deallocate operations. -/
theorem lock_ops_decoupled_from_allocation (s : ShmStruct) (hwf : ShmWF s)
    (c i : Nat) (hi : i < s.num_locks) :
    (∀ m, get_slot s (i / 32) (i % 32) = some m → m.state = .unlocked →
      ∃ s', lock_semaphore (some s) c i = some (0, some s') ∧
        bitmaps s' = bitmaps s) ∧
    (∀ m, get_slot s (i / 32) (i % 32) = some m → m.state = .locked c →
      ∃ s', unlock_semaphore (some s) c i = some (0, some s') ∧
        bitmaps s' = bitmaps s) ∧
    (∀ j r s', lock_semaphore (some s) c j = some (r, some s') →
      bitmaps s' = bitmaps s) ∧
    (∀ j r s', unlock_semaphore (some s) c j = some (r, some s') →
      bitmaps s' = bitmaps s) ∧
    (∀ j r s', try_lock (some s) c j = some (r, some s') →
      bitmaps s' = bitmaps s) := by
  have hnle : ¬ s.num_locks ≤ i := Nat.not_le.mpr hi
  refine ⟨?_, ?_, ?_, ?_, ?_⟩
  · intro m hm hst
    obtain ⟨st, cf⟩ := m
    simp only [Mutex.state] at hst
    subst hst
    have htake := take_mutex_unlocked ⟨.unlocked, cf⟩ c false rfl
    refine ⟨set_slot s (i / 32) (i % 32) ⟨.locked c, cf⟩, ?_, bitmaps_set_slot s _ _ _⟩
    simp [lock_semaphore, BITMAP_SIZE, hnle, hm, htake]
  · intro m hm hst
    obtain ⟨st, cf⟩ := m
    simp only [Mutex.state] at hst
    subst hst
    have hrel : release_mutex ⟨.locked c, cf⟩ c = (0, ⟨.unlocked, cf⟩) :=
      release_mutex_locked _ c rfl
    refine ⟨set_slot s (i / 32) (i % 32) ⟨.unlocked, cf⟩, ?_, bitmaps_set_slot s _ _ _⟩
    simp [unlock_semaphore, BITMAP_SIZE, hnle, hm, hrel]
  · intro j r s' h
    by_cases hj : s.num_locks ≤ j
    · simp [lock_semaphore, hj] at h
      rw [← h.2]
    · simp only [lock_semaphore, BITMAP_SIZE, if_neg hj] at h
      cases hg : get_slot s (j / 32) (j % 32) with
      | none => simp only [hg] at h; cases h
      | some m =>
        simp only [hg] at h
        cases ht : take_mutex m c false with
        | none => simp only [ht] at h; cases h
        | some rm =>
          obtain ⟨rc, m1⟩ := rm
          simp only [ht] at h
          simp at h
          rw [← h.2]
          exact bitmaps_set_slot s _ _ _
  · intro j r s' h
    by_cases hj : s.num_locks ≤ j
    · simp [unlock_semaphore, hj] at h
      rw [← h.2]
    · simp only [unlock_semaphore, BITMAP_SIZE, if_neg hj] at h
      cases hg : get_slot s (j / 32) (j % 32) with
      | none => simp only [hg] at h; cases h
      | some m =>
        simp only [hg] at h
        rcases hrm : release_mutex m c with ⟨rc, m1⟩
        simp only [hrm] at h
        simp at h
        rw [← h.2]
        exact bitmaps_set_slot s _ _ _
  · intro j r s' h
    by_cases hj : s.num_locks ≤ j
    · simp [try_lock, hj] at h
      rw [← h.2]
    · simp only [try_lock, BITMAP_SIZE, if_neg hj] at h
      cases hg : get_slot s (j / 32) (j % 32) with
      | none => simp only [hg] at h; cases h
      | some m =>
        simp only [hg] at h
        cases ht : take_mutex m c true with
        | none => simp only [ht] at h; cases h
        | some rm =>
          obtain ⟨rc, m1⟩ := rm
          simp only [ht] at h
          by_cases hb : rc = EBUSY
          · simp [hb] at h
            rw [← h.2]
            exact bitmaps_set_slot s _ _ _
          · by_cases hz : rc = 0
            · subst hz
              rcases hrm : release_mutex m1 c with ⟨rc2, m2⟩
              simp only [hb, if_false, hrm] at h
              split_ifs at h <;>
                (simp at h; rw [← h.2]; exact bitmaps_set_slot s _ _ _)
            · simp [hb, hz] at h
              rw [← h.2]
              exact bitmaps_set_slot s _ _ _

/-- Witness for C5: on `seg32` (allocation bit of slot 0 clear) acquiring
slot 0 succeeds and preserves the bitmaps; on `segHeld` the holder 7
releases slot 0 likewise. -/
theorem lock_ops_decoupled_from_allocation_witness :
    (∃ s', lock_semaphore (some seg32) 1 0 = some (0, some s') ∧
      bitmaps s' = bitmaps seg32) ∧
    (∃ s', unlock_semaphore (some segHeld) 7 0 = some (0, some s') ∧
      bitmaps s' = bitmaps segHeld) :=
  ⟨(lock_ops_decoupled_from_allocation seg32 (by decide) 1 0 (by decide)).1
      mutexInit (by decide) rfl,
   (lock_ops_decoupled_from_allocation segHeld (by decide) 7 0 (by decide)).2.1
      { state := .locked 7, consistentFault := none } (by decide) rfl⟩

/-- The C test `(test_map & bitmap) == 0` with `test_map = 1 << p` reads
bit `p`. -/
theorem two_pow_and_eq_zero_iff (b p : Nat) :
    2 ^ p &&& b = 0 ↔ b.testBit p = false := by
  constructor
  · intro h
    have hc := congrArg (fun x => Nat.testBit x p) h
    simpa [Nat.testBit_land, Nat.testBit_two_pow, Nat.zero_testBit] using hc
  · intro h
    apply Nat.eq_of_testBit_eq
    intro k
    simp only [Nat.testBit_land, Nat.testBit_two_pow, Nat.zero_testBit]
    by_cases hk : p = k
    · subst hk
      simp [h]
    · simp [hk]

/-- Clearing bit `p` with `bitmap & ~(1 << p)` (complement on a
`uint32_t`) clears exactly bit `p`. -/
theorem clear_bit_testBit (b p : Nat) (hb : b < 2 ^ 32) (hp : p < 32) (k : Nat) :
    (b &&& (0xFFFFFFFF ^^^ 2 ^ p)).testBit k = (b.testBit k && decide (k ≠ p)) := by
  have hmask : (0xFFFFFFFF : Nat) = 2 ^ 32 - 1 := by norm_num
  rw [Nat.testBit_land, hmask, Nat.testBit_xor, Nat.testBit_two_pow_sub_one,
    Nat.testBit_two_pow]
  by_cases hk : k < 32
  · by_cases hkp : k = p
    · subst hkp
      simp [hk]
    · simp [hk, hkp]
      exact fun _ hpe => hkp hpe.symm
  · have hbk : b.testBit k = false := by
      refine Nat.testBit_lt_two_pow (lt_of_lt_of_le hb ?_)
      exact Nat.pow_le_pow_right (by norm_num) (by omega)
    have hpk : ¬ p = k := by omega
    simp [hk, hpk, hbk]

/-- Setting then clearing a clear bit restores the bitmap. -/
theorem set_then_clear_bit (b p : Nat) (hb : b < 2 ^ 32) (hp : p < 32)
    (hfree : b.testBit p = false) :
    (b ||| 2 ^ p) &&& (0xFFFFFFFF ^^^ 2 ^ p) = b := by
  have hor : b ||| 2 ^ p < 2 ^ 32 :=
    Nat.or_lt_two_pow hb (Nat.pow_lt_pow_right (by norm_num) hp)
  apply Nat.eq_of_testBit_eq
  intro k
  rw [clear_bit_testBit _ p hor hp k, Nat.testBit_lor, Nat.testBit_two_pow]
  by_cases hkp : k = p
  · subst hkp
    simp [hfree]
  · simp [hkp]
    exact fun hpe => absurd hpe.symm hkp

/-- C8: for a valid index whose allocation bit is clear, `free` fails
with `-ENOENT` (double-free detected) and the segment — in particular
every group bitmap — is exactly as before; for a valid index whose bit is
set, `free` succeeds and clears exactly that bit of exactly that group. -/
theorem deallocate_double_free (s : ShmStruct) (hwf : ShmWF s) (c i : Nat)
    (hi : i < s.num_locks) (hseg : s.segment_lock.state = .unlocked) :
    (∀ g, s.locks.get? (i / 32) = some g → g.bitmap.testBit (i % 32) = false →
      deallocate_semaphore (some s) c i = some (-ENOENT, some s)) ∧
    (∀ g, s.locks.get? (i / 32) = some g → g.bitmap.testBit (i % 32) = true →
      ∃ s', deallocate_semaphore (some s) c i = some (0, some s') ∧
        (∀ j, j ≠ i / 32 → s'.locks.get? j = s.locks.get? j) ∧
        ∃ g', s'.locks.get? (i / 32) = some g' ∧ g'.locks = g.locks ∧
          ∀ k, g'.bitmap.testBit k = (g.bitmap.testBit k && decide (k ≠ i % 32))) := by
  obtain ⟨hlen, hnum, hgwf⟩ := hwf
  have hnle : ¬ s.num_locks ≤ i := Nat.not_le.mpr hi
  have hdivlt : ¬ s.num_bitmaps ≤ i / 32 := by omega
  rcases hsl : s.segment_lock with ⟨sst, scf⟩
  rw [hsl] at hseg
  simp only at hseg
  subst hseg
  have htake : take_mutex s.segment_lock c false =
      some (0, ⟨.locked c, scf⟩) := by
    rw [hsl]
    exact take_mutex_unlocked _ _ _ rfl
  have hrel : release_mutex ⟨.locked c, scf⟩ c = (0, ⟨.unlocked, scf⟩) :=
    release_mutex_locked _ _ rfl
  have hs_eta : ({ s with segment_lock := (⟨.unlocked, scf⟩ : Mutex) }) = s := by
    rw [← hsl]
  constructor
  · intro g hg hbit
    have hcond : 2 ^ (i % 32) &&& g.bitmap = 0 := (two_pow_and_eq_zero_iff _ _).mpr hbit
    simp only [deallocate_semaphore, BITMAP_SIZE, hnle, hdivlt, htake, hg, hcond, hrel,
      if_false, ite_false]
    simp [hs_eta]
  · intro g hg hbit
    have hcond : ¬ (2 ^ (i % 32) &&& g.bitmap = 0) := by
      rw [two_pow_and_eq_zero_iff]
      simp [hbit]
    have hmem : g ∈ s.locks := List.get?_mem hg
    obtain ⟨hb32, -⟩ := hgwf g hmem
    have hp32 : i % 32 < 32 := by omega
    refine ⟨{ s with locks := modify_group s.locks (i / 32) (fun g2 => { g2 with bitmap := g2.bitmap &&& (0xFFFFFFFF ^^^ 2 ^ (i % 32)) }) }, ?_, ?_, ?_⟩
    · simp only [deallocate_semaphore, BITMAP_SIZE, hnle, hdivlt, htake, hg, hcond, hrel,
        if_false, ite_false]
      simp
      rw [← hsl]
    · intro j hj
      simp only
      exact modify_group_get_ne s.locks (i / 32) j _ hj
    · refine ⟨{ g with bitmap := g.bitmap &&& (0xFFFFFFFF ^^^ 2 ^ (i % 32)) }, ?_, rfl, ?_⟩
      · simp only
        exact modify_group_get_eq s.locks (i / 32) _ g hg
      · intro k
        simp only
        exact clear_bit_testBit g.bitmap (i % 32) hb32 hp32 k

/-- Witness for C8: freeing unallocated slot 0 of `seg32` fails with
`-ENOENT` and leaves the segment untouched; freeing allocated slot 0 of
`segAlloc` succeeds and clears exactly bit 0. -/
theorem deallocate_double_free_witness :
    deallocate_semaphore (some seg32) 1 0 = some (-ENOENT, some seg32) ∧
    (∃ s', deallocate_semaphore (some segAlloc) 1 0 = some (0, some s') ∧
      (∀ j, j ≠ 0 / 32 → s'.locks.get? j = segAlloc.locks.get? j) ∧
      ∃ g', s'.locks.get? (0 / 32) = some g' ∧
        g'.locks = List.replicate 32 mutexInit ∧
        ∀ k, g'.bitmap.testBit k = ((1 : Nat).testBit k && decide (k ≠ 0 % 32))) :=
  ⟨(deallocate_double_free seg32 (by decide) 1 0 (by decide) rfl).1
      { bitmap := 0, locks := List.replicate 32 mutexInit } rfl (by decide),
   (deallocate_double_free segAlloc (by decide) 1 0 (by decide) rfl).2
      { bitmap := 1, locks := List.replicate 32 mutexInit } rfl (by decide)⟩

/-- Inversion of the inner bit scan: a hit is in range and names a clear
bit. -/
theorem scan_bits_from_some (b : Nat) : ∀ fuel start p,
    scan_bits_from b start fuel = some p →
    start ≤ p ∧ p < start + fuel ∧ b.testBit p = false := by
  intro fuel
  induction fuel with
  | zero => intro start p h; cases h
  | succ f ih =>
    intro start p h
    unfold scan_bits_from at h
    by_cases hbit : b.testBit start
    · rw [if_pos hbit] at h
      obtain ⟨h1, h2, h3⟩ := ih (start + 1) p h
      exact ⟨by omega, by omega, h3⟩
    · rw [if_neg hbit] at h
      cases h
      exact ⟨le_refl _, by omega, by simpa using hbit⟩

/-- The inner bit scan finds exactly the least clear bit at or above
`start`. -/
theorem scan_bits_from_least (b : Nat) : ∀ fuel start p,
    start + fuel = 32 → start ≤ p → p < 32 → b.testBit p = false →
    (∀ q, start ≤ q → q < p → b.testBit q = true) →
    scan_bits_from b start fuel = some p := by
  intro fuel
  induction fuel with
  | zero => intro start p h32 hsp hp _ _; omega
  | succ f ih =>
    intro start p h32 hsp hp hz hset
    unfold scan_bits_from
    by_cases hbit : b.testBit start
    · rw [if_pos hbit]
      have hne : start ≠ p := fun he => by rw [he] at hbit; rw [hz] at hbit; cases hbit
      exact ih (start + 1) p (by omega) (by omega) hp hz
        (fun q hq1 hq2 => hset q (by omega) hq2)
    · rw [if_neg hbit]
      have : p = start := by
        by_contra hne
        exact hbit (hset start (le_refl _) (by omega))
      rw [this]

/-- A 32-bit bitmap other than `0xFFFFFFFF` has a clear bit below 32. -/
theorem exists_clear_bit (b : Nat) (hb : b < 2 ^ 32) (hne : b ≠ 0xFFFFFFFF) :
    ∃ q, q < 32 ∧ b.testBit q = false := by
  by_contra hcon
  push_neg at hcon
  apply hne
  have hmask : (0xFFFFFFFF : Nat) = 2 ^ 32 - 1 := by norm_num
  rw [hmask]
  apply Nat.eq_of_testBit_eq
  intro k
  rw [Nat.testBit_two_pow_sub_one]
  by_cases hk : k < 32
  · simp [hk, Bool.ne_false_iff.mp (hcon k hk)]
  · have : b.testBit k = false :=
      Nat.testBit_lt_two_pow (lt_of_lt_of_le hb (Nat.pow_le_pow_right (by norm_num) (by omega)))
    simp [hk, this]

/-- Inversion of the group scan: a hit names an in-range, non-full group
and a clear bit found by the inner scan. -/
theorem alloc_scan_from_some (s : ShmStruct) : ∀ fuel i p q,
    alloc_scan_from s i fuel = some (p, q) →
    i ≤ p ∧ p < i + fuel ∧ ∃ g, s.locks.get? p = some g ∧
      g.bitmap ≠ 0xFFFFFFFF ∧ scan_bits g.bitmap 0 = some q := by
  intro fuel
  induction fuel with
  | zero => intro i p q h; cases h
  | succ f ih =>
    intro i p q h
    unfold alloc_scan_from at h
    cases hg : s.locks.get? i with
    | none => simp only [hg] at h; cases h
    | some g =>
      simp only [hg] at h
      by_cases hfull : g.bitmap ≠ 0xFFFFFFFF
      · rw [if_pos hfull] at h
        cases hs : scan_bits g.bitmap 0 with
        | none =>
          rw [hs] at h
          obtain ⟨h1, h2, h3⟩ := ih (i + 1) p q h
          exact ⟨by omega, by omega, h3⟩
        | some pos =>
          rw [hs] at h
          cases h
          exact ⟨le_refl _, by omega, g, hg, hfull, hs⟩
      · rw [if_neg hfull] at h
        obtain ⟨h1, h2, h3⟩ := ih (i + 1) p q h
        exact ⟨by omega, by omega, h3⟩

/-- The group scan returns the first non-full group (all groups below it
being full) together with the inner scan's result there. -/
theorem alloc_scan_from_least (s : ShmStruct) : ∀ fuel i gi p,
    i ≤ gi → gi < i + fuel →
    (∀ j, i ≤ j → j < gi → ∃ gj, s.locks.get? j = some gj ∧ gj.bitmap = 0xFFFFFFFF) →
    (∃ g, s.locks.get? gi = some g ∧ g.bitmap ≠ 0xFFFFFFFF ∧
      scan_bits g.bitmap 0 = some p) →
    alloc_scan_from s i fuel = some (gi, p) := by
  intro fuel
  induction fuel with
  | zero => intro i gi p h1 h2 _ _; omega
  | succ f ih =>
    intro i gi p h1 h2 hfull htgt
    unfold alloc_scan_from
    by_cases hie : i = gi
    · subst hie
      obtain ⟨g, hg, hnf, hs⟩ := htgt
      simp only [hg, if_pos hnf, hs]
    · obtain ⟨gj, hgj, hfj⟩ := hfull i (le_refl _) (by omega)
      have hnn : ¬ gj.bitmap ≠ 0xFFFFFFFF := by simp [hfj]
      simp only [hgj, if_neg hnn]
      exact ih (i + 1) gi p (by omega) (by omega)
        (fun j hj1 hj2 => hfull j (by omega) hj2) htgt

/-- When every group in range is full the scan falls through to `none`. -/
theorem alloc_scan_from_full (s : ShmStruct) : ∀ fuel i,
    (∀ j, i ≤ j → j < i + fuel → ∃ gj, s.locks.get? j = some gj ∧
      gj.bitmap = 0xFFFFFFFF) →
    alloc_scan_from s i fuel = none := by
  intro fuel
  induction fuel with
  | zero => intro i _; rfl
  | succ f ih =>
    intro i hfull
    unfold alloc_scan_from
    obtain ⟨gj, hgj, hfj⟩ := hfull i (le_refl _) (by omega)
    have hnn : ¬ gj.bitmap ≠ 0xFFFFFFFF := by simp [hfj]
    simp only [hgj, if_neg hnn]
    exact ih (i + 1) (fun j hj1 hj2 => hfull j (by omega) (by omega))

/-- C1: `allocate_semaphore` implements the deterministic
lowest-free-index policy.  If `gi` is the first group whose bitmap is not
full and `p` the first clear bit in it, the call returns the global index
`32 * gi + p` and sets exactly that bit; if every group is full it
returns `-ENOSPC` leaving the segment unchanged.  Concretely, on an empty
two-group segment of capacity 64, 65 successive calls return
0, 1, ..., 63 and then `-ENOSPC`. -/
theorem allocate_any_lowest_free_policy (s : ShmStruct) (hwf : ShmWF s) (c : Nat)
    (hseg : s.segment_lock.state = .unlocked) :
    (∀ gi p g, gi < s.num_bitmaps → s.locks.get? gi = some g →
      (∀ j, j < gi → ∃ gj, s.locks.get? j = some gj ∧ gj.bitmap = 0xFFFFFFFF) →
      g.bitmap ≠ 0xFFFFFFFF → p < 32 → g.bitmap.testBit p = false →
      (∀ q, q < p → g.bitmap.testBit q = true) →
      ∃ s', allocate_semaphore (some s) c = some (((32 * gi + p : Nat) : Int), some s') ∧
        s'.locks = modify_group s.locks gi
          (fun g2 => { g2 with bitmap := g2.bitmap ||| 2 ^ p })) ∧
    ((∀ j, j < s.num_bitmaps → ∃ gj, s.locks.get? j = some gj ∧
        gj.bitmap = 0xFFFFFFFF) →
      allocate_semaphore (some s) c = some (-ENOSPC, some s)) ∧
    ((alloc_run seg64 0 65).map (fun x => x.1) =
      some (((List.range 64).map (fun k => (k : Int))) ++ [-ENOSPC])) := by
  rcases hsl : s.segment_lock with ⟨sst, scf⟩
  rw [hsl] at hseg
  simp only at hseg
  subst hseg
  have htake : take_mutex s.segment_lock c false = some (0, ⟨.locked c, scf⟩) := by
    rw [hsl]
    exact take_mutex_unlocked _ _ _ rfl
  have hrel : release_mutex ⟨.locked c, scf⟩ c = (0, ⟨.unlocked, scf⟩) :=
    release_mutex_locked _ _ rfl
  refine ⟨?_, ?_, by decide⟩
  · intro gi p g hgi hg hbelow hnf hp hz hset
    have hscanb : scan_bits g.bitmap 0 = some p :=
      scan_bits_from_least g.bitmap 32 0 p (by omega) (by omega) hp hz
        (fun q _ hq2 => hset q hq2)
    have hscan : alloc_scan_from { s with segment_lock := (⟨.locked c, scf⟩ : Mutex) } 0 s.num_bitmaps = some (gi, p) :=
      alloc_scan_from_least _ s.num_bitmaps 0 gi p (by omega) (by omega)
        (fun j _ hj2 => hbelow j hj2) ⟨g, hg, hnf, hscanb⟩
    refine ⟨{ s with locks := modify_group s.locks gi (fun g2 => { g2 with bitmap := g2.bitmap ||| 2 ^ p }) }, ?_, rfl⟩
    simp only [allocate_semaphore, BITMAP_SIZE, htake, ite_false]
    simp only [alloc_scan, BITMAP_SIZE, Nat.sub_zero]
    simp only [hscan, hrel]
    rw [← hsl]
    simp
  · intro hfull
    have hscan : alloc_scan_from { s with segment_lock := (⟨.locked c, scf⟩ : Mutex) } 0 s.num_bitmaps = none :=
      alloc_scan_from_full _ s.num_bitmaps 0 (fun j _ hj2 => hfull j (by omega))
    simp only [allocate_semaphore, BITMAP_SIZE, htake, ite_false]
    simp only [alloc_scan, BITMAP_SIZE, Nat.sub_zero]
    simp only [hscan, hrel]
    rw [← hsl]
    simp

/-- Witness for C1: on `segC1` the lowest free index is 32 * 1 + 3 = 35;
on `segFull` the call reports `-ENOSPC`; the 65-call run on the empty
64-slot segment returns 0, ..., 63 then `-ENOSPC`. -/
theorem allocate_any_lowest_free_policy_witness :
    (∃ s', allocate_semaphore (some segC1) 0 = some (((32 * 1 + 3 : Nat) : Int), some s') ∧
      s'.locks = modify_group segC1.locks 1
        (fun g2 => { g2 with bitmap := g2.bitmap ||| 2 ^ 3 })) ∧
    allocate_semaphore (some segFull) 0 = some (-ENOSPC, some segFull) ∧
    ((alloc_run seg64 0 65).map (fun x => x.1) =
      some (((List.range 64).map (fun k => (k : Int))) ++ [-ENOSPC])) :=
  ⟨(allocate_any_lowest_free_policy segC1 (by decide) 0 rfl).1 1 3
      { bitmap := 7, locks := List.replicate 32 mutexInit } (by decide) rfl
      (by
        intro j hj
        obtain rfl : j = 0 := by omega
        exact ⟨_, rfl, rfl⟩)
      (by decide) (by decide) (by decide)
      (by
        intro q hq
        interval_cases q <;> decide),
   (allocate_any_lowest_free_policy segFull (by decide) 0 rfl).2.1
      (by
        intro j hj
        have hj2 : j < 2 := hj
        interval_cases j <;> exact ⟨_, rfl, rfl⟩),
   (allocate_any_lowest_free_policy segFull (by decide) 0 rfl).2.2⟩

/-- Two successive modifications of the same group compose. -/
theorem modify_group_comp (l : List LockGroup) (i : Nat)
    (f1 f2 : LockGroup → LockGroup) :
    modify_group (modify_group l i f1) i f2 = modify_group l i (fun g => f2 (f1 g)) := by
  induction l generalizing i with
  | nil => rfl
  | cons g gs ih =>
    cases i with
    | zero => simp [modify_group]
    | succ n => simp [modify_group, ih]

/-- Clearing the lowest set bit of an even number `2q` clears the lowest
set bit of `q`, shifted. -/
theorem land_pred_two_mul (q : Nat) :
    (2 * q) &&& (2 * q - 1) = 2 * (q &&& (q - 1)) := by
  cases q with
  | zero => rfl
  | succ n =>
    apply Nat.eq_of_testBit_eq
    intro k
    simp only [Nat.add_sub_cancel]
    cases k with
    | zero =>
      simp [Nat.testBit_land, Nat.testBit_zero, Nat.mul_mod_right]
    | succ k2 =>
      have h1 : (2 * (n + 1)) / 2 = n + 1 := by omega
      have h2 : (2 * (n + 1) - 1) / 2 = n := by omega
      have h3 : (2 * ((n + 1) &&& n)) / 2 = (n + 1) &&& n := by omega
      rw [Nat.testBit_land, Nat.testBit_succ, Nat.testBit_succ, Nat.testBit_succ,
        h1, h2, h3, Nat.testBit_land]

/-- Clearing the lowest set bit of an odd number `2q + 1` yields `2q`. -/
theorem land_pred_two_mul_add_one (q : Nat) :
    (2 * q + 1) &&& (2 * q + 1 - 1) = 2 * q := by
  apply Nat.eq_of_testBit_eq
  intro k
  cases k with
  | zero =>
    simp [Nat.testBit_land, Nat.testBit_zero, Nat.mul_mod_right, Nat.add_mul_mod_self_left]
  | succ k2 =>
    have h1 : (2 * q + 1) / 2 = q := by omega
    have h2 : (2 * q + 1 - 1) / 2 = q := by omega
    rw [Nat.testBit_land, Nat.testBit_succ, Nat.testBit_succ, Nat.testBit_succ, h1]
    have h3 : (2 * q + 1 - 1) = 2 * q := by omega
    rw [h3] at h2
    rw [h2]
    simp

theorem digitSum_zero : digitSum 0 = 0 := by simp [digitSum]

theorem digitSum_rec (m : Nat) (hm : m ≠ 0) :
    digitSum m = m % 2 + digitSum (m / 2) := by
  unfold digitSum
  rw [Nat.digits_def' (by norm_num : 1 < 2) (Nat.pos_of_ne_zero hm)]
  simp

theorem digitSum_two_mul (q : Nat) : digitSum (2 * q) = digitSum q := by
  cases hq : q with
  | zero => rfl
  | succ n =>
    rw [digitSum_rec (2 * (n + 1)) (by omega)]
    have h1 : 2 * (n + 1) % 2 = 0 := by omega
    have h2 : 2 * (n + 1) / 2 = n + 1 := by omega
    rw [h1, h2]
    omega

theorem digitSum_two_mul_add_one (q : Nat) :
    digitSum (2 * q + 1) = digitSum q + 1 := by
  rw [digitSum_rec (2 * q + 1) (by omega)]
  have h1 : (2 * q + 1) % 2 = 1 := by omega
  have h2 : (2 * q + 1) / 2 = q := by omega
  rw [h1, h2]
  omega

/-- Clearing the lowest set bit removes exactly one from the digit sum. -/
theorem digitSum_land_pred (m : Nat) (hm : m ≠ 0) :
    digitSum (m &&& (m - 1)) + 1 = digitSum m := by
  induction m using Nat.strong_induction_on with
  | _ m ih =>
    rcases Nat.even_or_odd m with he | ho
    · obtain ⟨q, hq⟩ := he
      have hq2 : m = 2 * q := by omega
      subst hq2
      have hqne : q ≠ 0 := by omega
      rw [land_pred_two_mul, digitSum_two_mul, digitSum_two_mul]
      exact ih q (by omega) hqne
    · obtain ⟨q, hq⟩ := ho
      subst hq
      rw [land_pred_two_mul_add_one, digitSum_two_mul, digitSum_two_mul_add_one]

/-- With enough fuel the Kernighan loop computes the digit sum. -/
theorem kernighan_go_eq_digitSum : ∀ fuel m, m ≤ fuel →
    kernighan_go m fuel = digitSum m := by
  intro fuel
  induction fuel with
  | zero =>
    intro m hm
    obtain rfl : m = 0 := by omega
    simp [kernighan_go, digitSum]
  | succ f ih =>
    intro m hm
    by_cases hz : m = 0
    · subst hz
      simp [kernighan_go, digitSum]
    · unfold kernighan_go
      rw [if_neg hz]
      have hlt : m &&& (m - 1) < m :=
        Nat.lt_of_le_of_lt Nat.and_le_right (Nat.sub_lt (Nat.pos_of_ne_zero hz) one_pos)
      rw [ih (m &&& (m - 1)) (by omega)]
      have := digitSum_land_pred m hz
      omega

/-- The Kernighan loop of `available_locks` computes the binary digit
sum, i.e. the popcount. -/
theorem kernighan_count_eq_digitSum (m : Nat) : kernighan_count m = digitSum m :=
  kernighan_go_eq_digitSum m m (le_refl m)

/-- The free-count loop accumulates `32 - popcount(bitmap)` over the
scanned groups. -/
theorem avail_loop_from_eq (s : ShmStruct) : ∀ fuel i acc,
    i + fuel ≤ s.locks.length →
    avail_loop_from s i acc fuel =
      some (acc + (((s.locks.drop i).take fuel).map
        (fun g => 32 - digitSum g.bitmap)).sum) := by
  intro fuel
  induction fuel with
  | zero =>
    intro i acc hle
    simp [avail_loop_from]
  | succ f ih =>
    intro i acc hle
    have hlt : i < s.locks.length := by omega
    have hget : s.locks.get? i = some (s.locks.get ⟨i, hlt⟩) := List.get?_eq_get hlt
    have hdrop : s.locks.drop i = s.locks.get ⟨i, hlt⟩ :: s.locks.drop (i + 1) :=
      List.drop_eq_get_cons hlt
    unfold avail_loop_from
    simp only [hget]
    rw [hdrop]
    simp only [List.take_succ_cons, List.map_cons, List.sum_cons]
    by_cases hbm : (s.locks.get ⟨i, hlt⟩).bitmap = 0
    · rw [if_pos hbm, ih (i + 1) (acc + 32) (by omega)]
      rw [hbm]
      simp [digitSum_zero]
      omega
    · rw [if_neg hbm, ih (i + 1) (acc + (32 - kernighan_count (s.locks.get ⟨i, hlt⟩).bitmap)) (by omega)]
      rw [kernighan_count_eq_digitSum]
      simp
      omega

/-- The `available_locks` result is the spec formula: the sum over all
groups of `32 - popcount(bitmap)`, and the segment is returned exactly as
it was. -/
theorem available_locks_spec (s : ShmStruct) (hwf : ShmWF s) (c : Nat)
    (hseg : s.segment_lock.state = .unlocked) :
    available_locks (some s) c =
      some ((((s.locks.map (fun g => 32 - digitSum g.bitmap)).sum : Nat) : Int),
        some s) := by
  obtain ⟨hlen, -, -⟩ := hwf
  rcases hsl : s.segment_lock with ⟨sst, scf⟩
  rw [hsl] at hseg
  simp only at hseg
  subst hseg
  have htake : take_mutex s.segment_lock c false = some (0, ⟨.locked c, scf⟩) := by
    rw [hsl]
    exact take_mutex_unlocked _ _ _ rfl
  have hrel : release_mutex ⟨.locked c, scf⟩ c = (0, ⟨.unlocked, scf⟩) :=
    release_mutex_locked _ _ rfl
  have hloop : avail_loop_from { s with segment_lock := (⟨.locked c, scf⟩ : Mutex) } 0 0
      s.num_bitmaps =
      some ((s.locks.map (fun g => 32 - digitSum g.bitmap)).sum) := by
    have := avail_loop_from_eq { s with segment_lock := (⟨.locked c, scf⟩ : Mutex) }
      s.num_bitmaps 0 0 (by simpa using le_of_eq hlen.symm)
    simpa [List.take_of_length_le (le_of_eq hlen)] using this
  simp only [available_locks, htake, ite_false]
  simp only [avail_loop, Nat.sub_zero]
  simp only [hloop, hrel]
  rw [← hsl]
  simp

/-- C9: on any well-formed segment with a free slot, `allocateAny`
followed by `free` of the returned index brings `availableCount` back to
exactly its pre-allocation value. -/
theorem allocate_free_restores_available (s : ShmStruct) (hwf : ShmWF s) (c : Nat)
    (hseg : s.segment_lock.state = .unlocked)
    (hfree : ∃ idx g, idx < s.num_bitmaps ∧ s.locks.get? idx = some g ∧
      g.bitmap ≠ 0xFFFFFFFF) :
    (∃ k s1 s2, allocate_semaphore (some s) c = some (((k : Nat) : Int), some s1) ∧
      deallocate_semaphore (some s1) c k = some (0, some s2) ∧
      available_locks (some s2) c = available_locks (some s) c) ∧
    available_locks (some s) c =
      some ((((s.locks.map (fun g => 32 - digitSum g.bitmap)).sum : Nat) : Int),
        some s) := by
  refine ⟨?_, available_locks_spec s hwf c hseg⟩
  obtain ⟨hlen, hnum, hgwf⟩ := id hwf
  -- the first group with a free slot
  have hexP : ∃ j, j < s.num_bitmaps ∧ ∃ g, s.locks.get? j = some g ∧
      g.bitmap ≠ 0xFFFFFFFF := by
    obtain ⟨idx, g, h1, h2, h3⟩ := hfree
    exact ⟨idx, h1, g, h2, h3⟩
  classical
  let gi := Nat.find hexP
  obtain ⟨hgilt, g, hg, hnf⟩ : gi < s.num_bitmaps ∧ ∃ g, s.locks.get? gi = some g ∧
      g.bitmap ≠ 0xFFFFFFFF := Nat.find_spec hexP
  have hbelow : ∀ j, j < gi → ∃ gj, s.locks.get? j = some gj ∧
      gj.bitmap = 0xFFFFFFFF := by
    intro j hj
    have hjlt : j < s.locks.length := by omega
    have hgetj : s.locks.get? j = some (s.locks.get ⟨j, hjlt⟩) := List.get?_eq_get hjlt
    refine ⟨_, hgetj, ?_⟩
    by_contra hne
    exact Nat.find_min hexP hj ⟨by omega, _, hgetj, hne⟩
  have hmem : g ∈ s.locks := List.get?_mem hg
  obtain ⟨hb32, -⟩ := hgwf g hmem
  -- the first clear bit in that group
  have hexQ : ∃ q, q < 32 ∧ g.bitmap.testBit q = false := exists_clear_bit _ hb32 hnf
  let p := Nat.find hexQ
  obtain ⟨hp32, hz⟩ : p < 32 ∧ g.bitmap.testBit p = false := Nat.find_spec hexQ
  have hset : ∀ q, q < p → g.bitmap.testBit q = true := by
    intro q hq
    by_contra hne
    exact Nat.find_min hexQ hq ⟨by omega, Bool.eq_false_iff.mpr hne⟩
  -- lock bookkeeping
  rcases hsl : s.segment_lock with ⟨sst, scf⟩
  rw [hsl] at hseg
  simp only at hseg
  subst hseg
  have htake : take_mutex s.segment_lock c false = some (0, ⟨.locked c, scf⟩) := by
    rw [hsl]
    exact take_mutex_unlocked _ _ _ rfl
  have hrel : release_mutex ⟨.locked c, scf⟩ c = (0, ⟨.unlocked, scf⟩) :=
    release_mutex_locked _ _ rfl
  -- the allocation step
  have hscanb : scan_bits g.bitmap 0 = some p :=
    scan_bits_from_least g.bitmap 32 0 p (by omega) (by omega) hp32 hz
      (fun q _ hq2 => hset q hq2)
  have hscan : alloc_scan_from { s with segment_lock := (⟨.locked c, scf⟩ : Mutex) } 0
      s.num_bitmaps = some (gi, p) :=
    alloc_scan_from_least _ s.num_bitmaps 0 gi p (by omega) (by omega)
      (fun j _ hj2 => hbelow j hj2) ⟨g, hg, hnf, hscanb⟩
  refine ⟨32 * gi + p, { s with locks := modify_group s.locks gi (fun g2 => { g2 with bitmap := g2.bitmap ||| 2 ^ p }) }, s, ?_, ?_, rfl⟩
  · simp only [allocate_semaphore, BITMAP_SIZE, htake, ite_false]
    simp only [alloc_scan, BITMAP_SIZE, Nat.sub_zero]
    simp only [hscan, hrel]
    rw [← hsl]
    simp
  · -- the deallocation step restores the bitmap exactly
    have hdiv : (32 * gi + p) / 32 = gi := by omega
    have hmod : (32 * gi + p) % 32 = p := by omega
    have hnle : ¬ s.num_locks ≤ 32 * gi + p := by omega
    have hdivlt : ¬ s.num_bitmaps ≤ gi := by omega
    have hgetm : (modify_group s.locks gi (fun g2 => { g2 with bitmap := g2.bitmap ||| 2 ^ p })).get? gi = some { g with bitmap := g.bitmap ||| 2 ^ p } :=
      modify_group_get_eq s.locks gi _ g hg
    have hbit : ¬ (2 ^ p &&& (g.bitmap ||| 2 ^ p) = 0) := by
      rw [two_pow_and_eq_zero_iff]
      simp [Nat.testBit_lor, Nat.testBit_two_pow]
    simp only [deallocate_semaphore, BITMAP_SIZE, hdiv, hmod, hnle, hdivlt, htake,
      ite_false, if_false]
    simp only [hgetm]
    simp only [hbit, if_false, ite_false, hrel]
    rw [← hsl]
    simp only [modify_group_comp]
    have hrestore : modify_group s.locks gi (fun g2 => { ({ g2 with bitmap := g2.bitmap ||| 2 ^ p }) with bitmap := ({ g2 with bitmap := g2.bitmap ||| 2 ^ p }).bitmap &&& (0xFFFFFFFF ^^^ 2 ^ p) }) = s.locks := by
      apply modify_group_id s.locks gi _ g hg
      simp only
      rw [set_then_clear_bit g.bitmap p hb32 hp32 hz]
    rw [hrestore]
    simp

/-- Witness for C9 on `segC1`: allocating (index 35) then freeing it
restores the available count, which equals the sum over the groups of
`32 - popcount(bitmap)`. -/
theorem allocate_free_restores_available_witness :
    (∃ k s1 s2, allocate_semaphore (some segC1) 0 = some (((k : Nat) : Int), some s1) ∧
      deallocate_semaphore (some s1) 0 k = some (0, some s2) ∧
      available_locks (some s2) 0 = available_locks (some segC1) 0) ∧
    available_locks (some segC1) 0 =
      some ((((segC1.locks.map (fun g => 32 - digitSum g.bitmap)).sum : Nat) : Int),
        some segC1) :=
  allocate_free_restores_available segC1 (by decide) 0 rfl
    ⟨1, { bitmap := 7, locks := List.replicate 32 mutexInit }, by decide, rfl, by decide⟩

/-- Setting bit `p` with `bitmap | (1 << p)` sets exactly bit `p`. -/
theorem set_bit_testBit (b p b2 : Nat) :
    (b ||| 2 ^ p).testBit b2 = (if b2 = p then true else b.testBit b2) := by
  rw [Nat.testBit_lor, Nat.testBit_two_pow]
  by_cases hb2 : b2 = p
  · subst hb2
    simp
  · simp [hb2]
    exact fun hpe => absurd hpe.symm hb2

/-- In a well-formed segment every in-range group index designates a
32-bit group. -/
theorem get_group_of_wf (s : ShmStruct) (hwf : ShmWF s) (gi : Nat)
    (hgi : gi < s.num_bitmaps) :
    ∃ g, s.locks.get? gi = some g ∧ g.bitmap < 2 ^ 32 := by
  obtain ⟨hlen, -, hgwf⟩ := hwf
  have hlt : gi < s.locks.length := by omega
  have hget : s.locks.get? gi = some (s.locks.get ⟨gi, hlt⟩) := List.get?_eq_get hlt
  obtain ⟨hb, -⟩ := hgwf _ (s.locks.get_mem _ _)
  exact ⟨_, hget, hb⟩

/-- Frame property of `allocate_semaphore`: any returning call preserves
magic and the stored counts; a success returns an in-range index and sets
exactly its bit; a failure leaves the groups untouched. -/
theorem allocate_semaphore_frame (s : ShmStruct) (hwf : ShmWF s) (c : Nat)
    (r : Int) (s' : ShmStruct)
    (h : allocate_semaphore (some s) c = some (r, some s')) :
    s'.magic = s.magic ∧ s'.num_bitmaps = s.num_bitmaps ∧
    s'.num_locks = s.num_locks ∧
    (0 ≤ r → ∃ k, r = ((k : Nat) : Int) ∧ k < s.num_locks ∧
      one_bit_change s s' k true) ∧
    (r < 0 → s'.locks = s.locks) := by
  simp only [allocate_semaphore, BITMAP_SIZE] at h
  cases ht : take_mutex s.segment_lock c false with
  | none => simp only [ht] at h; cases h
  | some rm =>
    obtain ⟨rc, m1⟩ := rm
    have hrcnn : 0 ≤ rc := take_mutex_code_nonneg _ _ _ _ _ ht
    simp only [ht] at h
    by_cases hrc : rc = 0
    · subst hrc
      simp only [ne_eq, not_true_eq_false, ite_false, if_false] at h
      simp at h
      obtain ⟨hheld, -⟩ := take_mutex_success_state _ _ _ _ ht
      obtain ⟨m2, hrel2⟩ := release_mutex_of_held m1 c hheld
      cases hs : alloc_scan_from { s with segment_lock := m1 } 0 s.num_bitmaps with
      | none =>
        simp only [alloc_scan, Nat.sub_zero] at h
        simp only [hs, hrel2] at h
        simp at h
        obtain ⟨hr, hrec⟩ := h
        subst hrec
        refine ⟨rfl, rfl, rfl, ?_, fun _ => rfl⟩
        intro h0
        rw [← hr] at h0
        exact absurd h0 (by simp [ENOSPC])
      | some gp =>
        obtain ⟨gi, p⟩ := gp
        simp only [alloc_scan, Nat.sub_zero] at h
        simp only [hs, hrel2] at h
        simp at h
        obtain ⟨hr, hrec⟩ := h
        obtain ⟨-, hgip, g, hg0, hnf, hsb⟩ := alloc_scan_from_some _ _ _ _ _ hs
        replace hg0 : s.locks.get? gi = some g := hg0
        obtain ⟨-, hp32, hz⟩ := scan_bits_from_some _ _ _ _ hsb
        obtain ⟨hlen, hnum, -⟩ := hwf
        have hdiv : (32 * gi + p) / 32 = gi := by omega
        have hmod : (32 * gi + p) % 32 = p := by omega
        subst hrec
        refine ⟨rfl, rfl, rfl, ?_, ?_⟩
        · intro h0
          have hk : r = ((32 * gi + p : Nat) : Int) := by push_cast; omega
          have hklt : 32 * gi + p < s.num_locks := by omega
          refine ⟨32 * gi + p, hk, hklt, ?_⟩
          unfold one_bit_change
          refine ⟨?_, ?_⟩
          · intro j hj
            rw [hdiv] at hj
            exact modify_group_get_ne s.locks gi j _ hj
          · rw [hdiv, hmod]
            refine ⟨g, { g with bitmap := g.bitmap ||| 2 ^ p }, hg0,
              modify_group_get_eq s.locks gi _ g hg0, rfl, by simpa using hz, ?_⟩
            intro b2
            exact set_bit_testBit g.bitmap p b2
        · intro hneg
          rw [← hr] at hneg
          exact absurd hneg (by omega)
          
    · simp only [ne_eq, hrc, not_false_eq_true, ite_true, if_true] at h
      simp at h
      obtain ⟨hr, hrec⟩ := h
      subst hrec
      refine ⟨rfl, rfl, rfl, ?_, fun _ => rfl⟩
      intro h0
      rw [← hr] at h0
      have : (0 : Int) < rc := lt_of_le_of_ne hrcnn (fun he => hrc he.symm)
      omega

/-- Frame property of `allocate_given_semaphore`: magic and counts are
always preserved; success sets exactly bit `i`; every failure leaves the
groups untouched. -/
theorem allocate_given_semaphore_frame (s : ShmStruct) (hwf : ShmWF s)
    (c i : Nat) (r : Int) (s' : ShmStruct)
    (h : allocate_given_semaphore (some s) c i = some (r, some s')) :
    s'.magic = s.magic ∧ s'.num_bitmaps = s.num_bitmaps ∧
    s'.num_locks = s.num_locks ∧
    (r = 0 → one_bit_change s s' i true) ∧
    (r ≠ 0 → s'.locks = s.locks) := by
  simp only [allocate_given_semaphore, BITMAP_SIZE] at h
  by_cases h1 : s.num_locks ≤ i
  · simp only [h1, if_true, ite_true] at h
    simp at h
    obtain ⟨hr, hrec⟩ := h
    subst hrec
    refine ⟨rfl, rfl, rfl, ?_, fun _ => rfl⟩
    intro h0
    rw [← hr] at h0
    exact absurd h0 (by decide)
  · simp only [h1, if_false, ite_false] at h
    by_cases h2 : s.num_bitmaps ≤ i / 32
    · simp only [h2, if_true, ite_true] at h
      simp at h
      obtain ⟨hr, hrec⟩ := h
      subst hrec
      refine ⟨rfl, rfl, rfl, ?_, fun _ => rfl⟩
      intro h0
      rw [← hr] at h0
      exact absurd h0 (by decide)
    · simp only [h2, if_false, ite_false] at h
      cases ht : take_mutex s.segment_lock c false with
      | none => simp only [ht] at h; cases h
      | some rm =>
        obtain ⟨rc, m1⟩ := rm
        have hrcnn : 0 ≤ rc := take_mutex_code_nonneg _ _ _ _ _ ht
        simp only [ht] at h
        by_cases hrc : rc = 0
        · subst hrc
          simp only [ne_eq, not_true_eq_false, ite_false, if_false] at h
          obtain ⟨hheld, -⟩ := take_mutex_success_state _ _ _ _ ht
          obtain ⟨m2, hrel2⟩ := release_mutex_of_held m1 c hheld
          cases hgm : s.locks.get? (i / 32) with
          | none =>
            exfalso
            obtain ⟨g, hg, -⟩ := get_group_of_wf s hwf (i / 32) (by omega)
            rw [hg] at hgm
            cases hgm
          | some g =>
            simp only [hgm] at h
            by_cases hbit : 2 ^ (i % 32) &&& g.bitmap ≠ 0
            · simp only [hbit, if_true, ite_true, hrel2] at h
              simp at h
              obtain ⟨hr, hrec⟩ := h
              subst hrec
              refine ⟨rfl, rfl, rfl, ?_, fun _ => rfl⟩
              intro h0
              rw [← hr] at h0
              exact absurd h0 (by decide)
            · simp only [hbit, if_false, ite_false, hrel2] at h
              simp at h
              obtain ⟨hr, hrec⟩ := h
              subst hrec
              refine ⟨rfl, rfl, rfl, ?_, ?_⟩
              · intro h0
                unfold one_bit_change
                refine ⟨?_, ?_⟩
                · intro j hj
                  exact modify_group_get_ne s.locks (i / 32) j _ hj
                · push_neg at hbit
                  refine ⟨g, { g with bitmap := g.bitmap ||| 2 ^ (i % 32) }, hgm,
                    modify_group_get_eq s.locks (i / 32) _ g hgm, rfl,
                    by simpa using (two_pow_and_eq_zero_iff _ _).mp hbit, ?_⟩
                  intro b2
                  exact set_bit_testBit g.bitmap (i % 32) b2
              · intro hne
                exact absurd hr.symm hne
        · simp only [ne_eq, hrc, not_false_eq_true, ite_true, if_true] at h
          simp at h
          obtain ⟨hr, hrec⟩ := h
          subst hrec
          refine ⟨rfl, rfl, rfl, ?_, fun _ => rfl⟩
          intro h0
          rw [← hr] at h0
          have : (0 : Int) < rc := lt_of_le_of_ne hrcnn (fun he => hrc he.symm)
          omega

/-- Frame property of `deallocate_semaphore`: magic and counts are always
preserved; success clears exactly bit `i`; every failure leaves the
groups untouched. -/
theorem deallocate_semaphore_frame (s : ShmStruct) (hwf : ShmWF s)
    (c i : Nat) (r : Int) (s' : ShmStruct)
    (h : deallocate_semaphore (some s) c i = some (r, some s')) :
    s'.magic = s.magic ∧ s'.num_bitmaps = s.num_bitmaps ∧
    s'.num_locks = s.num_locks ∧
    (r = 0 → one_bit_change s s' i false) ∧
    (r ≠ 0 → s'.locks = s.locks) := by
  simp only [deallocate_semaphore, BITMAP_SIZE] at h
  by_cases h1 : s.num_locks ≤ i
  · simp only [h1, if_true, ite_true] at h
    simp at h
    obtain ⟨hr, hrec⟩ := h
    subst hrec
    refine ⟨rfl, rfl, rfl, ?_, fun _ => rfl⟩
    intro h0
    rw [← hr] at h0
    exact absurd h0 (by decide)
  · simp only [h1, if_false, ite_false] at h
    by_cases h2 : s.num_bitmaps ≤ i / 32
    · simp only [h2, if_true, ite_true] at h
      simp at h
      obtain ⟨hr, hrec⟩ := h
      subst hrec
      refine ⟨rfl, rfl, rfl, ?_, fun _ => rfl⟩
      intro h0
      rw [← hr] at h0
      exact absurd h0 (by decide)
    · simp only [h2, if_false, ite_false] at h
      cases ht : take_mutex s.segment_lock c false with
      | none => simp only [ht] at h; cases h
      | some rm =>
        obtain ⟨rc, m1⟩ := rm
        have hrcnn : 0 ≤ rc := take_mutex_code_nonneg _ _ _ _ _ ht
        simp only [ht] at h
        by_cases hrc : rc = 0
        · subst hrc
          simp only [ne_eq, not_true_eq_false, ite_false, if_false] at h
          obtain ⟨hheld, -⟩ := take_mutex_success_state _ _ _ _ ht
          obtain ⟨m2, hrel2⟩ := release_mutex_of_held m1 c hheld
          cases hgm : s.locks.get? (i / 32) with
          | none =>
            exfalso
            obtain ⟨g, hg, -⟩ := get_group_of_wf s hwf (i / 32) (by omega)
            rw [hgm] at hg
            cases hg
          | some g =>
            simp only [hgm] at h
            obtain ⟨g2, hg2, hb32⟩ := get_group_of_wf s hwf (i / 32) (by omega)
            rw [hgm] at hg2
            injection hg2 with hg2e
            subst hg2e
            by_cases hbit : 2 ^ (i % 32) &&& g.bitmap = 0
            · simp only [hbit, if_true, ite_true, hrel2] at h
              simp at h
              obtain ⟨hr, hrec⟩ := h
              subst hrec
              refine ⟨rfl, rfl, rfl, ?_, fun _ => rfl⟩
              intro h0
              rw [← hr] at h0
              exact absurd h0 (by decide)
            · simp only [hbit, if_false, ite_false, hrel2] at h
              simp at h
              obtain ⟨hr, hrec⟩ := h
              subst hrec
              refine ⟨rfl, rfl, rfl, ?_, ?_⟩
              · intro h0
                unfold one_bit_change
                refine ⟨?_, ?_⟩
                · intro j hj
                  exact modify_group_get_ne s.locks (i / 32) j _ hj
                · have hbtrue : g.bitmap.testBit (i % 32) = true := by
                    by_contra hf
                    exact hbit ((two_pow_and_eq_zero_iff _ _).mpr
                      (Bool.eq_false_iff.mpr hf))
                  refine ⟨g, { g with bitmap := g.bitmap &&& (0xFFFFFFFF ^^^ 2 ^ (i % 32)) },
                    hgm, modify_group_get_eq s.locks (i / 32) _ g hgm, rfl,
                    by simpa using hbtrue, ?_⟩
                  intro b2
                  rw [clear_bit_testBit g.bitmap (i % 32) hb32 (by omega) b2]
                  by_cases hb2 : b2 = i % 32
                  · simp [hb2]
                  · simp [hb2]
              · intro hne
                exact absurd hr.symm hne
        · simp only [ne_eq, hrc, not_false_eq_true, ite_true, if_true] at h
          simp at h
          obtain ⟨hr, hrec⟩ := h
          subst hrec
          refine ⟨rfl, rfl, rfl, ?_, fun _ => rfl⟩
          intro h0
          rw [← hr] at h0
          have : (0 : Int) < rc := lt_of_le_of_ne hrcnn (fun he => hrc he.symm)
          omega

/-- C10: every returning allocation operation preserves the magic field,
the group count and the lock count; a successful `allocate_semaphore`
returns an index below the stored lock count and sets exactly one bit of
exactly one group, a successful `allocate_given_semaphore` or
`deallocate_semaphore` sets or clears exactly bit `i`; every failing call
leaves the group list — hence every bitmap — untouched. -/
theorem allocation_ops_frame (s : ShmStruct) (hwf : ShmWF s) (c : Nat) :
    (∀ r s', allocate_semaphore (some s) c = some (r, some s') →
      s'.magic = s.magic ∧ s'.num_bitmaps = s.num_bitmaps ∧
      s'.num_locks = s.num_locks ∧
      (0 ≤ r → ∃ k, r = ((k : Nat) : Int) ∧ k < s.num_locks ∧
        one_bit_change s s' k true) ∧
      (r < 0 → s'.locks = s.locks)) ∧
    (∀ i r s', allocate_given_semaphore (some s) c i = some (r, some s') →
      s'.magic = s.magic ∧ s'.num_bitmaps = s.num_bitmaps ∧
      s'.num_locks = s.num_locks ∧
      (r = 0 → one_bit_change s s' i true) ∧
      (r ≠ 0 → s'.locks = s.locks)) ∧
    (∀ i r s', deallocate_semaphore (some s) c i = some (r, some s') →
      s'.magic = s.magic ∧ s'.num_bitmaps = s.num_bitmaps ∧
      s'.num_locks = s.num_locks ∧
      (r = 0 → one_bit_change s s' i false) ∧
      (r ≠ 0 → s'.locks = s.locks)) :=
  ⟨fun r s' h => allocate_semaphore_frame s hwf c r s' h,
   fun i r s' h => allocate_given_semaphore_frame s hwf c i r s' h,
   fun i r s' h => deallocate_semaphore_frame s hwf c i r s' h⟩

/-- Witness for C10 on `segC1`: the successful `allocateAny` (returning
35 < 64) sets exactly one bit; `allocateAt 0` on the full group fails
with `-EEXIST` leaving the groups untouched, as does `free 63` on a clear
bit with `-ENOENT`. -/
theorem allocation_ops_frame_witness :
    (segC1after.magic = segC1.magic ∧ segC1after.num_bitmaps = segC1.num_bitmaps ∧
      segC1after.num_locks = segC1.num_locks ∧
      (0 ≤ (35 : Int) → ∃ k, (35 : Int) = ((k : Nat) : Int) ∧ k < segC1.num_locks ∧
        one_bit_change segC1 segC1after k true) ∧
      ((35 : Int) < 0 → segC1after.locks = segC1.locks)) ∧
    (segC1.magic = segC1.magic ∧ segC1.num_bitmaps = segC1.num_bitmaps ∧
      segC1.num_locks = segC1.num_locks ∧
      (-EEXIST = 0 → one_bit_change segC1 segC1 0 true) ∧
      (-EEXIST ≠ 0 → segC1.locks = segC1.locks)) ∧
    (segC1.magic = segC1.magic ∧ segC1.num_bitmaps = segC1.num_bitmaps ∧
      segC1.num_locks = segC1.num_locks ∧
      (-ENOENT = 0 → one_bit_change segC1 segC1 63 false) ∧
      (-ENOENT ≠ 0 → segC1.locks = segC1.locks)) :=
  ⟨(allocation_ops_frame segC1 (by decide) 0).1 35 segC1after (by decide),
   (allocation_ops_frame segC1 (by decide) 0).2.1 0 (-EEXIST) segC1 (by decide),
   (allocation_ops_frame segC1 (by decide) 0).2.2 63 (-ENOENT) segC1 (by decide)⟩
